import Mathlib

/-! Verification development for the header `src/lsignal.h`.

The header implements a multicast callback dispatcher (`signal`), connection
handles (`connection`) and owner guards (`slot`).  The embedding below keeps the
object graph of the C++ code explicit:

* a `std::shared_ptr<connection_data>` is `Option Nat`: `none` is the null
  pointer, `some c` points to the cell with identity `c`.  Cells are allocated
  by `std::make_shared` with increasing identities (`World.fresh`); a cell that
  somebody still points to is alive, so identities are never reused;
* a `slot*` is `Option Nat`: `none` is `nullptr`, `some p` the slot at address
  `p`; every address holds a live slot object, destruction is modelled by the
  destructor body;
* the lambda capturing `this` that calls `destroy_connection`, stored in a
  `_deleter`, is `some g`, where `g` is the address of the captured signal; the
  empty `std::function` is `none`;
* a callback `std::function<R(Args...)>` is a function of the argument pack `A`
  that may read and write user state `σ` and returns an `R`.  Callbacks do not
  re-enter the signal they are called from;
* `operator()` takes the pack `Args... args` by value and hands it to every
  callback as `std::forward<Args>(args)...`.  What such a call leaves in `args`
  depends on the argument types, which the header does not fix: the invocations
  take it as the parameter `moved : A → A`, the identity for scalars and
  references, the moved-from value for a by-value class type;
* `std::list` iterators are positions `0 .. length`, where `length` is `end()`.
  Dereferencing `end()`, stepping forward from `end()`, stepping back from
  `begin()` and dereferencing a null `shared_ptr` are undefined in C++: they are
  the error results (`none`) of the model.
-/

set_option linter.dupNamespace false

namespace lsignal

/-! ## Data model -/

/-- The struct `connection_data` (lines 74-77). -/
structure connection_data where
  locked : Bool
  deriving DecidableEq, Repr

/-- The data members of class `connection` (lines 94-95); a `slot` has exactly
these members, it derives from `connection` and adds none. -/
structure connection where
  _data : Option Nat
  _deleter : Option Nat
  deriving DecidableEq, Repr

/-- The constructor `slot::slot()` (lines 137-140): a null `_data`, an empty `_deleter`. -/
def slot.slot : connection :=
  { _data := none, _deleter := none }

/-- The struct `signal::joint` (lines 182-187). -/
structure joint (A R σ : Type) where
  callback : A → σ → R × σ
  connection : Option Nat
  owner : Option Nat

/-- The data members of class `signal` (lines 189-190). -/
structure signal (A R σ : Type) where
  _locked : Bool
  _callbacks : List (joint A R σ)

/-- The constructor `signal::signal()` (lines 202-206). -/
def signal.signal {A R σ : Type} : signal A R σ :=
  { _locked := false, _callbacks := [] }

/-- The objects of a program using the header: the `connection_data` cells by
identity, the next identity `make_shared` hands out, the `slot` objects by
address and the `signal` objects by address. -/
structure World (A R σ : Type) where
  cells : Nat → connection_data
  fresh : Nat
  slots : Nat → connection
  signals : Nat → signal A R σ

variable {A R σ : Type}

/-! ## `connection` and `slot` members that do not call back into a signal -/

/-- The member `connection::is_locked` (lines 108-111); `none` when `_data` is null. -/
def connection.is_locked (w : World A R σ) (h : connection) : Option Bool :=
  match h._data with
  | none => none
  | some c => some (w.cells c).locked

/-- The member `connection::set_lock` (lines 113-116); `none` when `_data` is null. -/
def connection.set_lock (w : World A R σ) (h : connection) (lock : Bool) : Option (World A R σ) :=
  match h._data with
  | none => none
  | some c => some { w with cells := Function.update w.cells c { locked := lock } }

/-! ## `std::list` iterators -/

/-- The iterator `begin()`: position `0` (which is `end()` when the list is empty). -/
def list_begin (_l : List (joint A R σ)) : Nat := 0

/-- The iterator `end()`: the position past the last element, `length`. -/
def list_end (l : List (joint A R σ)) : Nat := l.length

/-- The iterator step `++it`; undefined, `none`, at `end()`. -/
def list_incr (l : List (joint A R σ)) (it : Nat) : Option Nat :=
  if it = list_end l then none else some (it + 1)

/-- The iterator step `--it`; undefined, `none`, at `begin()`, which in an empty
list is `end()` itself. -/
def list_decr (l : List (joint A R σ)) (it : Nat) : Option Nat :=
  if it = list_begin l then none else some (it - 1)

/-- The dereference `*it`: `none` at `end()`. -/
def list_deref (l : List (joint A R σ)) (it : Nat) : Option (joint A R σ) := l[it]?

/-! ## `signal` members -/

/-- The member `signal::is_locked` (lines 223-227). -/
def signal.is_locked (w : World A R σ) (this : Nat) : Bool :=
  (w.signals this)._locked

/-- The member `signal::set_lock` (lines 229-233). -/
def signal.set_lock (w : World A R σ) (this : Nat) (lock : Bool) : World A R σ :=
  { w with signals := Function.update w.signals this { w.signals this with _locked := lock } }

/-- The two assignments `jnt.owner->_data = nullptr; jnt.owner->_deleter = function()`
under the guard `jnt.owner != nullptr` (lines 215-219, 284-288 and 391-395). -/
def clear_owner (slots : Nat → connection) (owner : Option Nat) : Nat → connection :=
  match owner with
  | none => slots
  | some p => Function.update slots p { _data := none, _deleter := none }

/-- The loop of `signal::~signal` and of `signal::disconnect_all` over `_callbacks`
(lines 211-220 and 280-289). -/
def clear_owners : List (joint A R σ) → (Nat → connection) → (Nat → connection)
  | [], slots => slots
  | jnt :: rest, slots => clear_owners rest (clear_owner slots jnt.owner)

/-- The destructor `signal::~signal` (lines 208-221): its body, run on the signal at `this`. -/
def signal.destructor (w : World A R σ) (this : Nat) : World A R σ :=
  { w with slots := clear_owners (w.signals this)._callbacks w.slots }

/-- The member `signal::disconnect_all` (lines 277-290). -/
def signal.disconnect_all (w : World A R σ) (this : Nat) : World A R σ :=
  { w with slots := clear_owners (w.signals this)._callbacks w.slots }

/-- The member `signal::create_connection` (lines 355-380): returns the new
`shared_ptr` and the world after the call. -/
def signal.create_connection (w : World A R σ) (this : Nat) (fn : A → σ → R × σ)
    (owner : Option Nat) : Option Nat × World A R σ :=
  let conn : Option Nat := some w.fresh
  let cells := Function.update w.cells w.fresh { locked := false }
  let slots :=
    match owner with
    | none => w.slots
    | some p => Function.update w.slots p { _data := conn, _deleter := some this }
  let jnt : joint A R σ := { callback := fn, connection := conn, owner := owner }
  let s := w.signals this
  (conn,
    { cells := cells
      fresh := w.fresh + 1
      slots := slots
      signals := Function.update w.signals this { s with _callbacks := s._callbacks ++ [jnt] } })

/-- The member `signal::prepare_connection` (lines 404-413). -/
def signal.prepare_connection (this : Nat) (conn : connection) : connection :=
  { conn with _deleter := some this }

/-- The constructor `connection::connection(shared_ptr&&)` (lines 99-102). -/
def connection.connection (data : Option Nat) : connection :=
  { _data := data, _deleter := none }

/-- The member `signal::connect` (lines 235-249): returns the handle and the world after the call. -/
def signal.connect (w : World A R σ) (this : Nat) (fn : A → σ → R × σ)
    (owner : Option Nat) : connection × World A R σ :=
  let r := signal.create_connection w this fn owner
  (signal.prepare_connection this (connection.connection r.1), r.2)

/-- The loop of `signal::destroy_connection` (lines 385-401): scan from the
front, at the first joint whose connection equals the argument clear its owner,
erase it and stop. -/
def destroy_loop (conn : Option Nat) :
    List (joint A R σ) → (Nat → connection) → List (joint A R σ) × (Nat → connection)
  | [], slots => ([], slots)
  | jnt :: rest, slots =>
    if jnt.connection = conn then
      (rest, clear_owner slots jnt.owner)
    else
      let r := destroy_loop conn rest slots
      (jnt :: r.1, r.2)

/-- The member `signal::destroy_connection` (lines 382-402). -/
def signal.destroy_connection (w : World A R σ) (this : Nat) (conn : Option Nat) :
    World A R σ :=
  let s := w.signals this
  let r := destroy_loop conn s._callbacks w.slots
  { w with
    slots := r.2
    signals := Function.update w.signals this { s with _callbacks := r.1 } }

/-- The member `signal::disconnect(const connection&)` (lines 262-266). -/
def signal.disconnect (w : World A R σ) (this : Nat) (conn : connection) : World A R σ :=
  signal.destroy_connection w this conn._data

/-- The member `signal::disconnect(slot*)` (lines 268-275). -/
def signal.disconnect_owner (w : World A R σ) (this : Nat) (owner : Option Nat) : World A R σ :=
  match owner with
  | none => w
  | some p => signal.destroy_connection w this (w.slots p)._data

/-- The member `connection::disconnect` (lines 118-124), called on a handle held by the user. -/
def connection.disconnect (w : World A R σ) (h : lsignal.connection) : World A R σ :=
  match h._deleter with
  | none => w
  | some g => signal.destroy_connection w g h._data

/-- The member `connection::disconnect` called on the slot at address `p`. -/
def slot.disconnect (w : World A R σ) (p : Nat) : World A R σ :=
  connection.disconnect w (w.slots p)

/-- The destructor `slot::~slot` (lines 142-145): its body, run on the slot at `p`. -/
def slot.destructor (w : World A R σ) (p : Nat) : World A R σ :=
  slot.disconnect w p

/-! ## Invocation -/

/-- The `for` loop of the standard `operator()` (lines 300-308).  The first
numeric argument bounds the number of iterations, the second is `iter`; the
result is `iter`, the pack `args` and the user state at loop exit.  A call
`jnt.callback(std::forward<Args>(args)...)` hands the callback the pack as it
is and leaves `moved args` in it. -/
def call_loop (moved : A → A) (cells : Nat → connection_data) (l : List (joint A R σ))
    (last : Nat) : Nat → Nat → A → σ → Option (Nat × A × σ)
  | 0, _, _, _ => none
  | fuel + 1, iter, args, st =>
    if iter ≠ last then
      match list_deref l iter with
      | none => none
      | some jnt =>
        match jnt.connection with
        | none => none
        | some c =>
          match list_incr l iter with
          | none => none
          | some next =>
            if !(cells c).locked then
              call_loop moved cells l last fuel next (moved args) (jnt.callback args st).2
            else
              call_loop moved cells l last fuel next args st
    else
      some (iter, args, st)

/-- The standard invocation `R operator() (Args... args)` (lines 292-322):
the returned value and the user state after the call. -/
def signal.call [Inhabited R] (moved : A → A) (w : World A R σ) (this : Nat) (args : A)
    (st : σ) : Option (R × σ) :=
  let s := w.signals this
  if !s._locked then
    let iter := list_begin s._callbacks
    match list_decr s._callbacks (list_end s._callbacks) with
    | none => none
    | some last =>
      match call_loop moved w.cells s._callbacks last (s._callbacks.length + 1) iter args st with
      | none => none
      | some (iter, args, st) =>
        if iter ≠ list_end s._callbacks then
          match list_deref s._callbacks iter with
          | none => none
          | some jnt =>
            match jnt.connection with
            | none => none
            | some c =>
              if !(w.cells c).locked then
                some (jnt.callback args st)
              else
                some (default, st)
        else
          some (default, st)
  else
    some (default, st)

/-- The `for` loop of the aggregating `operator()` (lines 334-342); the list
argument is the vector `result`, and `args` is re-forwarded at each call as in
`call_loop`. -/
def call_agg_loop (moved : A → A) (cells : Nat → connection_data) :
    List (joint A R σ) → List R → A → σ → Option (List R × σ)
  | [], result, _, st => some (result, st)
  | jnt :: rest, result, args, st =>
    match jnt.connection with
    | none => none
    | some c =>
      if !(cells c).locked then
        let r := jnt.callback args st
        call_agg_loop moved cells rest (result ++ [r.1]) (moved args) r.2
      else
        call_agg_loop moved cells rest result args st

/-- The aggregating invocation `R operator() (Args... args, const T& agg)`
(lines 324-346): the returned value and the user state after the call. -/
def signal.call_agg (moved : A → A) (w : World A R σ) (this : Nat) (args : A)
    (agg : List R → R) (st : σ) : Option (R × σ) :=
  let s := w.signals this
  if !s._locked then
    match call_agg_loop moved w.cells s._callbacks [] args st with
    | none => none
    | some (result, st) => some (agg result, st)
  else
    some (agg [], st)

/-! ## Vocabulary of the specification -/

/-- A joint is connection-locked: the `locked` flag of the cell its connection points to. -/
def joint_locked (cells : Nat → connection_data) (jnt : joint A R σ) : Bool :=
  match jnt.connection with
  | none => false
  | some c => (cells c).locked

/-- The joints that are not connection-locked, in registration order. -/
def unlocked_joints (cells : Nat → connection_data) (l : List (joint A R σ)) :
    List (joint A R σ) :=
  l.filter (fun jnt => !joint_locked cells jnt)

/-- The user state after calling the callback of every joint of the list once,
front to back, each with the pack as the calls before it left it. -/
def run_callbacks (moved : A → A) : List (joint A R σ) → A → σ → σ
  | [], _, st => st
  | jnt :: rest, args, st => run_callbacks moved rest (moved args) (jnt.callback args st).2

/-- The results of calling the callback of every joint of the list once, front
to back, each with the pack and in the user state its predecessors left. -/
def collect_results (moved : A → A) : List (joint A R σ) → A → σ → List R
  | [], _, _ => []
  | jnt :: rest, args, st =>
    (jnt.callback args st).1 :: collect_results moved rest (moved args) (jnt.callback args st).2

/-- Every joint of the list holds a non-null connection, as `create_connection`
stores the result of `make_shared`. -/
def joints_nonnull (l : List (joint A R σ)) : Prop :=
  ∀ jnt ∈ l, jnt.connection ≠ none

/-- No two joints of the list share a connection state. -/
def joints_distinct (l : List (joint A R σ)) : Prop :=
  (l.map joint.connection).Nodup

/-- Slot `p` owns the joint at position `i` of the signal at `g`: the joint
names `p` as its owner and the back-reference of `p` is that joint's connection
state together with the removal operation of `g`, the two links that
`create_connection` establishes (lines 367-368 and 375). -/
def slot_owns (w : World A R σ) (p g i : Nat) : Prop :=
  ∃ jnt, (w.signals g)._callbacks[i]? = some jnt ∧ jnt.owner = some p ∧
    (w.slots p)._data = jnt.connection ∧ (w.slots p)._deleter = some g

/-! ## Program states -/

/-- A program state with no registrations: every signal as its constructor
leaves it, every slot as its constructor leaves it, no cell allocated. -/
def World.init : World A R σ :=
  { cells := fun _ => { locked := false }
    fresh := 0
    slots := fun _ => slot.slot
    signals := fun _ => signal.signal }

/-- The program states that calls of the public members produce from `World.init`.
Handles are values held by the caller (the result of `connect`, a copy of it, or
a slot read as its `connection` base), so the members taking a handle are
admitted for every handle value. -/
inductive Reachable : World A R σ → Prop
  | init : Reachable World.init
  | connect {w : World A R σ} (this : Nat) (fn : A → σ → R × σ) (owner : Option Nat) :
      Reachable w → Reachable (signal.connect w this fn owner).2
  | disconnect {w : World A R σ} (this : Nat) (h : connection) :
      Reachable w → Reachable (signal.disconnect w this h)
  | disconnect_owner {w : World A R σ} (this : Nat) (owner : Option Nat) :
      Reachable w → Reachable (signal.disconnect_owner w this owner)
  | disconnect_all {w : World A R σ} (this : Nat) :
      Reachable w → Reachable (signal.disconnect_all w this)
  | set_lock {w : World A R σ} (this : Nat) (lock : Bool) :
      Reachable w → Reachable (signal.set_lock w this lock)
  | handle_disconnect {w : World A R σ} (h : connection) :
      Reachable w → Reachable (connection.disconnect w h)
  | handle_set_lock {w w' : World A R σ} (h : connection) (lock : Bool) :
      Reachable w → connection.set_lock w h lock = some w' → Reachable w'
  | slot_disconnect {w : World A R σ} (p : Nat) :
      Reachable w → Reachable (slot.disconnect w p)
  | slot_set_lock {w w' : World A R σ} (p : Nat) (lock : Bool) :
      Reachable w → connection.set_lock w (w.slots p) lock = some w' → Reachable w'

/-- What every reachable state satisfies: joints hold allocated, pairwise
distinct connection states; a slot's back-reference is allocated; and a joint
whose connection state is a slot's back-reference names that slot as owner and
lives in the signal the slot's removal operation is bound to. -/
structure Invariant (w : World A R σ) : Prop where
  allocated : ∀ g, ∀ jnt ∈ (w.signals g)._callbacks, ∃ c, jnt.connection = some c ∧ c < w.fresh
  distinct : ∀ g, joints_distinct (w.signals g)._callbacks
  slot_allocated : ∀ p c, (w.slots p)._data = some c → c < w.fresh
  linked : ∀ p c g, ∀ jnt ∈ (w.signals g)._callbacks, (w.slots p)._data = some c →
    jnt.connection = some c → jnt.owner = some p ∧ (w.slots p)._deleter = some g

/-! ## The scenario of the specification -/

/-- A callback computing `f x` that logs `tag` in the user state. -/
def logged (tag : Nat) (f : Int → Int) : Int → List Nat → Int × List Nat :=
  fun x st => (f x, st ++ [tag])

/-- The signal at address `0` after connecting `x+1`, `x*2`, `x-1` in that order. -/
def scenario : World Int Int (List Nat) :=
  let w1 := (signal.connect World.init 0 (logged 1 (fun x => x + 1)) none).2
  let w2 := (signal.connect w1 0 (logged 2 (fun x => x * 2)) none).2
  (signal.connect w2 0 (logged 3 (fun x => x - 1)) none).2

/-- The scenario after `set_lock(true)` through the handle of connection `c`. -/
def scenario_locked (c : Nat) : World Int Int (List Nat) :=
  { scenario with cells := Function.update scenario.cells c { locked := true } }

/-- The signal at address `0` after connecting `x+1` owned by the slot at `7`,
`x*2` without owner and `x-1` owned by the slot at `8`. -/
def scenario_owned : World Int Int (List Nat) :=
  let w1 := (signal.connect World.init 0 (logged 1 (fun x => x + 1)) (some 7)).2
  let w2 := (signal.connect w1 0 (logged 2 (fun x => x * 2)) none).2
  (signal.connect w2 0 (logged 3 (fun x => x - 1)) (some 8)).2

/-! ## Ownership vocabulary -/

/-- The number of joints registered in the signal at `g` that name the slot `p` as owner. -/
def owner_count (w : World A R σ) (g p : Nat) : Nat :=
  (w.signals g)._callbacks.countP (fun jnt => jnt.owner == some p)

/-- Some registered joint names the slot `p` as its owner. -/
def slot_named (w : World A R σ) (p : Nat) : Prop :=
  ∃ g, ∃ jnt ∈ (w.signals g)._callbacks, jnt.owner = some p

/-- At most one registered joint, over all signals, names the slot `p` as its owner. -/
def single_owner (w : World A R σ) (p : Nat) : Prop :=
  (∀ g, owner_count w g p ≤ 1) ∧
    ∀ g g', g ≠ g' → owner_count w g p + owner_count w g' p ≤ 1

/-- The owner argument of a `connect` call is null or a slot that no registered
joint names as its owner. -/
def owner_unnamed (w : World A R σ) (owner : Option Nat) : Prop :=
  ∀ p, owner = some p → ∀ g, owner_count w g p = 0

/-- The states of `Reachable` in which no `connect` call was passed a slot that
a registered joint already named as its owner. -/
inductive ReachableGuarded : World A R σ → Prop
  | init : ReachableGuarded World.init
  | connect {w : World A R σ} (this : Nat) (fn : A → σ → R × σ) (owner : Option Nat) :
      ReachableGuarded w → owner_unnamed w owner →
      ReachableGuarded (signal.connect w this fn owner).2
  | disconnect {w : World A R σ} (this : Nat) (h : connection) :
      ReachableGuarded w → ReachableGuarded (signal.disconnect w this h)
  | disconnect_owner {w : World A R σ} (this : Nat) (owner : Option Nat) :
      ReachableGuarded w → ReachableGuarded (signal.disconnect_owner w this owner)
  | disconnect_all {w : World A R σ} (this : Nat) :
      ReachableGuarded w → ReachableGuarded (signal.disconnect_all w this)
  | set_lock {w : World A R σ} (this : Nat) (lock : Bool) :
      ReachableGuarded w → ReachableGuarded (signal.set_lock w this lock)
  | handle_disconnect {w : World A R σ} (h : connection) :
      ReachableGuarded w → ReachableGuarded (connection.disconnect w h)
  | handle_set_lock {w w' : World A R σ} (h : connection) (lock : Bool) :
      ReachableGuarded w → connection.set_lock w h lock = some w' → ReachableGuarded w'
  | slot_disconnect {w : World A R σ} (p : Nat) :
      ReachableGuarded w → ReachableGuarded (slot.disconnect w p)
  | slot_set_lock {w w' : World A R σ} (p : Nat) (lock : Bool) :
      ReachableGuarded w → connection.set_lock w (w.slots p) lock = some w' →
      ReachableGuarded w'

/-- The states of `ReachableGuarded` reached without a call of `disconnect_all`. -/
inductive ReachableAttached : World A R σ → Prop
  | init : ReachableAttached World.init
  | connect {w : World A R σ} (this : Nat) (fn : A → σ → R × σ) (owner : Option Nat) :
      ReachableAttached w → owner_unnamed w owner →
      ReachableAttached (signal.connect w this fn owner).2
  | disconnect {w : World A R σ} (this : Nat) (h : connection) :
      ReachableAttached w → ReachableAttached (signal.disconnect w this h)
  | disconnect_owner {w : World A R σ} (this : Nat) (owner : Option Nat) :
      ReachableAttached w → ReachableAttached (signal.disconnect_owner w this owner)
  | set_lock {w : World A R σ} (this : Nat) (lock : Bool) :
      ReachableAttached w → ReachableAttached (signal.set_lock w this lock)
  | handle_disconnect {w : World A R σ} (h : connection) :
      ReachableAttached w → ReachableAttached (connection.disconnect w h)
  | handle_set_lock {w w' : World A R σ} (h : connection) (lock : Bool) :
      ReachableAttached w → connection.set_lock w h lock = some w' → ReachableAttached w'
  | slot_disconnect {w : World A R σ} (p : Nat) :
      ReachableAttached w → ReachableAttached (slot.disconnect w p)
  | slot_set_lock {w w' : World A R σ} (p : Nat) (lock : Bool) :
      ReachableAttached w → connection.set_lock w (w.slots p) lock = some w' →
      ReachableAttached w'

/-- What every reachable state satisfies besides `Invariant`: joints of
different signals hold different connection states, the connection state a slot
points back to is held by a joint of the signal its removal operation is bound
to, and a slot with a null connection state has an empty removal operation. -/
structure Linkage (w : World A R σ) : Prop where
  cross : ∀ g g', ∀ jnt ∈ (w.signals g)._callbacks, ∀ jnt' ∈ (w.signals g')._callbacks,
    jnt.connection = jnt'.connection → g = g'
  live : ∀ p c, (w.slots p)._data = some c →
    ∃ g, (w.slots p)._deleter = some g ∧ ∃ jnt ∈ (w.signals g)._callbacks, jnt.connection = some c
  bound : ∀ p, (w.slots p)._data = none → (w.slots p)._deleter = none

/-- Every joint that names a slot as owner is the joint that slot points back to. -/
def owners_linked (w : World A R σ) : Prop :=
  ∀ g, ∀ jnt ∈ (w.signals g)._callbacks, ∀ p, jnt.owner = some p →
    (w.slots p)._data = jnt.connection ∧ (w.slots p)._deleter = some g

/-! ## Further scenarios -/

/-- The signal at address `0` after connecting `x+1` and then `x*2`, both with
the slot at `7` as owner. -/
def scenario_twice : World Int Int (List Nat) :=
  let w1 := (signal.connect World.init 0 (logged 1 (fun x => x + 1)) (some 7)).2
  (signal.connect w1 0 (logged 2 (fun x => x * 2)) (some 7)).2

/-- The signal at address `0` after connecting `x+1` with the slot at `7` as
owner and then calling `disconnect_all`. -/
def scenario_all : World Int Int (List Nat) :=
  signal.disconnect_all (signal.connect World.init 0 (logged 1 (fun x => x + 1)) (some 7)).2 0

/-- A callback of a `signal<int(std::string)>` that returns the size of its
argument and logs it in the user state. -/
def sized : String → List Nat → Int × List Nat :=
  fun s st => (s.length, st ++ [s.length])

/-- What a move leaves in a `std::string` passed by value, as the common
library implementations have it: the empty string. -/
def moved_string : String → String :=
  fun _ => ""

/-- The signal at address `0` of type `signal<int(std::string)>` after
connecting the callback `sized` three times. -/
def scenario_strings : World String Int (List Nat) :=
  let w1 := (signal.connect World.init 0 sized none).2
  let w2 := (signal.connect w1 0 sized none).2
  (signal.connect w2 0 sized none).2

/-! ## Dispatch -/

theorem unlocked_joints_cons (cells : Nat → connection_data) (jnt : joint A R σ)
    (l : List (joint A R σ)) :
    unlocked_joints cells (jnt :: l) =
      if joint_locked cells jnt then unlocked_joints cells l
      else jnt :: unlocked_joints cells l := by
  unfold unlocked_joints
  cases h : joint_locked cells jnt <;> simp [List.filter_cons, h]

theorem unlocked_joints_append (cells : Nat → connection_data) (l₁ l₂ : List (joint A R σ)) :
    unlocked_joints cells (l₁ ++ l₂) = unlocked_joints cells l₁ ++ unlocked_joints cells l₂ := by
  simp [unlocked_joints]

theorem run_callbacks_append (moved : A → A) (l₁ l₂ : List (joint A R σ)) (args : A) (st : σ) :
    run_callbacks moved (l₁ ++ l₂) args st =
      run_callbacks moved l₂ (moved^[l₁.length] args) (run_callbacks moved l₁ args st) := by
  induction l₁ generalizing args st with
  | nil => rfl
  | cons jnt rest ih => simp [run_callbacks, ih]

theorem call_loop_eq (moved : A → A) (cells : Nat → connection_data) (l : List (joint A R σ))
    (last : Nat) (hlast : last < l.length) (hnn : joints_nonnull l) :
    ∀ (d k fuel : Nat) (args : A) (st : σ), k + d = last → d < fuel →
      call_loop moved cells l last fuel k args st =
        some (last, moved^[(unlocked_joints cells ((l.drop k).take d)).length] args,
          run_callbacks moved (unlocked_joints cells ((l.drop k).take d)) args st) := by
  intro d
  induction d with
  | zero =>
    intro k fuel args st hk hf
    obtain ⟨f, rfl⟩ : ∃ f, fuel = f + 1 := ⟨fuel - 1, by omega⟩
    have hk' : k = last := by omega
    subst hk'
    simp [call_loop, unlocked_joints, run_callbacks]
  | succ d ih =>
    intro k fuel args st hk hf
    obtain ⟨f, rfl⟩ : ∃ f, fuel = f + 1 := ⟨fuel - 1, by omega⟩
    have hne : k ≠ last := by omega
    have hkl : k < l.length := by omega
    have hderef : list_deref l k = some (l.get ⟨k, hkl⟩) := by
      simp [list_deref, List.getElem?_eq_getElem hkl]
    have hincr : list_incr l k = some (k + 1) := by
      unfold list_incr list_end
      rw [if_neg (by omega)]
    have hdrop : (l.drop k).take (d + 1) = l.get ⟨k, hkl⟩ :: (l.drop (k + 1)).take d := by
      rw [List.drop_eq_getElem_cons hkl, List.take_succ_cons]
      rfl
    obtain ⟨c, hc⟩ : ∃ c, (l.get ⟨k, hkl⟩).connection = some c :=
      Option.ne_none_iff_exists'.mp (hnn _ (List.get_mem l k hkl))
    have hrec := fun args' st' => ih (k + 1) f args' st' (by omega) (by omega)
    rw [call_loop, if_pos hne, hderef]
    simp only [hc, hincr, hrec, hdrop, unlocked_joints_cons, joint_locked]
    cases (cells c).locked <;> simp [run_callbacks]

theorem list_decr_end_concat (init : List (joint A R σ)) (x : joint A R σ) :
    list_decr (init ++ [x]) (list_end (init ++ [x])) = some init.length := by
  simp [list_decr, list_end, list_begin]

theorem joint_locked_of_connection {cells : Nat → connection_data} {jnt : joint A R σ} {c : Nat}
    (h : jnt.connection = some c) : joint_locked cells jnt = (cells c).locked := by
  simp [joint_locked, h]

/-- The standard invocation, computed over the joint list instead of iterators:
undefined on an unlocked signal without joints, where `--cend()` steps back
from `begin()`. -/
theorem signal_call_eq [Inhabited R] (moved : A → A) (w : World A R σ) (this : Nat) (args : A)
    (st : σ) (hnn : joints_nonnull (w.signals this)._callbacks) :
    signal.call moved w this args st =
      if (w.signals this)._locked = true then some (default, st)
      else match (w.signals this)._callbacks.getLast? with
        | none => none
        | some jnt =>
          if joint_locked w.cells jnt = true then
            some (default, run_callbacks moved
              (unlocked_joints w.cells (w.signals this)._callbacks.dropLast) args st)
          else
            some (jnt.callback
              (moved^[(unlocked_joints w.cells
                (w.signals this)._callbacks.dropLast).length] args)
              (run_callbacks moved
                (unlocked_joints w.cells (w.signals this)._callbacks.dropLast) args st)) := by
  unfold signal.call
  generalize w.signals this = s at hnn ⊢
  obtain ⟨locked, l⟩ := s
  cases locked
  · rcases List.eq_nil_or_concat l with hnil | ⟨init, x, hcat⟩
    · simp [hnil, list_decr, list_end, list_begin]
    · rw [List.concat_eq_append] at hcat
      subst hcat
      have hloop := call_loop_eq moved w.cells (init ++ [x]) init.length (by simp) hnn
        init.length 0 ((init ++ [x]).length + 1) args st (by simp) (by simp; omega)
      simp only [List.drop_zero, List.take_left] at hloop
      obtain ⟨c, hc⟩ : ∃ c, x.connection = some c :=
        Option.ne_none_iff_exists'.mp (hnn x (by simp))
      simp only [list_begin, list_decr_end_concat, hloop]
      simp [list_end, list_deref, hc, joint_locked]
      cases (w.cells c).locked <;> simp
  · simp

theorem call_agg_loop_eq (moved : A → A) (cells : Nat → connection_data)
    (l : List (joint A R σ)) (hnn : joints_nonnull l) (result : List R) (args : A) (st : σ) :
    call_agg_loop moved cells l result args st =
      some (result ++ collect_results moved (unlocked_joints cells l) args st,
        run_callbacks moved (unlocked_joints cells l) args st) := by
  induction l generalizing result args st with
  | nil => simp [call_agg_loop, unlocked_joints, collect_results, run_callbacks]
  | cons jnt rest ih =>
    have hrest : joints_nonnull rest := fun j hj => hnn j (List.mem_cons_of_mem _ hj)
    obtain ⟨c, hc⟩ : ∃ c, jnt.connection = some c :=
      Option.ne_none_iff_exists'.mp (hnn jnt (List.mem_cons_self _ _))
    rw [call_agg_loop]
    simp only [hc, unlocked_joints_cons, joint_locked_of_connection hc]
    cases (cells c).locked <;> simp [ih hrest, collect_results, run_callbacks]

/-- The user state after a standard invocation of an unlocked signal that has a joint. -/
theorem signal_call_state [Inhabited R] (moved : A → A) (w : World A R σ) (this : Nat)
    (args : A) (st : σ) (hnn : joints_nonnull (w.signals this)._callbacks)
    (hu : (w.signals this)._locked = false) (hne : (w.signals this)._callbacks ≠ []) :
    (signal.call moved w this args st).map Prod.snd =
      some (run_callbacks moved
        ((w.signals this)._callbacks.filter (fun jnt => !joint_locked w.cells jnt)) args st) := by
  rw [signal_call_eq moved w this args st hnn, hu]
  rcases List.eq_nil_or_concat (w.signals this)._callbacks with hnil | ⟨init, x, hcat⟩
  · exact absurd hnil hne
  · rw [List.concat_eq_append] at hcat
    have hf : (init ++ [x]).filter (fun jnt => !joint_locked w.cells jnt) =
        unlocked_joints w.cells (init ++ [x]) := rfl
    simp only [hcat, hf, List.getLast?_append, List.dropLast_concat, unlocked_joints_append,
      run_callbacks_append, unlocked_joints_cons]
    cases hx : joint_locked w.cells x <;> simp [hx, unlocked_joints, run_callbacks]

/-- The aggregating invocation of an unlocked signal, computed over the joint list. -/
theorem signal_call_agg_eq (moved : A → A) (w : World A R σ) (this : Nat) (args : A)
    (agg : List R → R) (st : σ) (hnn : joints_nonnull (w.signals this)._callbacks)
    (hu : (w.signals this)._locked = false) :
    signal.call_agg moved w this args agg st =
      some (agg (collect_results moved
          ((w.signals this)._callbacks.filter (fun jnt => !joint_locked w.cells jnt)) args st),
        run_callbacks moved
          ((w.signals this)._callbacks.filter (fun jnt => !joint_locked w.cells jnt)) args st) := by
  unfold signal.call_agg
  have h := call_agg_loop_eq moved w.cells (w.signals this)._callbacks hnn [] args st
  simp only [unlocked_joints, List.nil_append] at h
  simp [hu, h]

/-- C1. The return rule of the standard invocation, "the last joint's callback
applied to args, and `R()` on an empty joint list", is not what the code does at
two inputs.  On a `signal<int(std::string)>` with three callbacks returning the
size of the argument, called with `"hello"`, the code returns `0`: the last
callback gets the pack the two calls before it moved from, where the callback
applied to `"hello"` gives `5`.  On an unlocked signal without joints the code
steps back from `begin()`, which has no defined result. -/
theorem standard_invocation_return_diverges :
    signal.call moved_string scenario_strings 0 "hello" [] = some (0, [5, 0, 0]) ∧
      (sized "hello" [5, 0]).1 = 5 ∧
      signal.call id (World.init : World Int Int (List Nat)) 0 10 [] = none :=
  ⟨rfl, rfl, rfl⟩

/-- C3. The aggregating invocation, "`agg` of the results `callback(args)` of
the not-locked joints", is not what the code does on a `signal<int(std::string)>`
with three callbacks returning the size of the argument, called with `"hello"`
and a summing aggregator: the code returns `5 + 0 + 0`, the second and third
callback getting the pack the calls before them moved from, where the results of
the callbacks applied to `"hello"` sum to `15`. -/
theorem aggregating_invocation_diverges :
    signal.call_agg moved_string scenario_strings 0 "hello" List.sum [] = some (5, [5, 0, 0]) ∧
      ((scenario_strings.signals 0)._callbacks.map
        (fun jnt => (jnt.callback "hello" []).1)).sum = 15 :=
  ⟨rfl, rfl⟩

/-! ## Registration and removal -/

theorem destroy_loop_not_found (conn : Option Nat) (l : List (joint A R σ))
    (slots : Nat → connection) (h : ∀ jnt ∈ l, jnt.connection ≠ conn) :
    destroy_loop conn l slots = (l, slots) := by
  induction l with
  | nil => rfl
  | cons jnt rest ih =>
    have hj : jnt.connection ≠ conn := h jnt (List.mem_cons_self _ _)
    have hr := ih (fun j hjm => h j (List.mem_cons_of_mem _ hjm))
    simp [destroy_loop, hj, hr]

theorem destroy_loop_first (conn : Option Nat) (l : List (joint A R σ))
    (slots : Nat → connection) (i : Nat) (jnt : joint A R σ) (hi : l[i]? = some jnt)
    (hc : jnt.connection = conn) (hfirst : ∀ k < i, ∀ j, l[k]? = some j → j.connection ≠ conn) :
    destroy_loop conn l slots = (l.eraseIdx i, clear_owner slots jnt.owner) := by
  induction l generalizing i with
  | nil => simp at hi
  | cons x rest ih =>
    cases i with
    | zero =>
      simp at hi
      subst hi
      simp [destroy_loop, hc]
    | succ i =>
      have hx : x.connection ≠ conn := hfirst 0 (by omega) x (by simp)
      have hr := ih i (by simpa using hi)
        (fun k hk j hj => hfirst (k + 1) (by omega) j (by simpa using hj))
      simp [destroy_loop, hx, hr]

theorem joints_distinct_first (l : List (joint A R σ)) (hd : joints_distinct l) (i : Nat)
    (jnt : joint A R σ) (hi : l[i]? = some jnt) :
    ∀ k < i, ∀ j, l[k]? = some j → j.connection ≠ jnt.connection := by
  intro k hk j hj heq
  unfold joints_distinct at hd
  have hil : i < l.length := (List.getElem?_eq_some_iff.mp hi).1
  have hkl : k < l.length := (List.getElem?_eq_some_iff.mp hj).1
  have h1 : (l.map joint.connection)[i]? = some jnt.connection := by simp [hi]
  have h2 : (l.map joint.connection)[k]? = some jnt.connection := by simp [hj, heq]
  have := (List.nodup_iff_injective_getElem.mp hd)
  have hik : (⟨i, by simpa using hil⟩ : Fin (l.map joint.connection).length) =
      ⟨k, by simpa using hkl⟩ := by
    apply this
    simp only [List.getElem_map]
    rw [(List.getElem?_eq_some_iff.mp hi).2, (List.getElem?_eq_some_iff.mp hj).2, heq]
  have : i = k := congrArg Fin.val hik
  omega

/-- In a list of distinct connections the loop erases the joint holding the connection. -/
theorem destroy_loop_distinct (l : List (joint A R σ)) (slots : Nat → connection)
    (hd : joints_distinct l) (i : Nat) (jnt : joint A R σ) (hi : l[i]? = some jnt) :
    destroy_loop jnt.connection l slots = (l.eraseIdx i, clear_owner slots jnt.owner) :=
  destroy_loop_first jnt.connection l slots i jnt hi rfl (joints_distinct_first l hd i jnt hi)

theorem destroy_loop_sublist (conn : Option Nat) (l : List (joint A R σ))
    (slots : Nat → connection) : (destroy_loop conn l slots).1.Sublist l := by
  induction l with
  | nil => simp [destroy_loop]
  | cons x rest ih =>
    by_cases hx : x.connection = conn
    · simp [destroy_loop, hx]
    · simp [destroy_loop, hx, ih]

/-- After the loop no joint holds the connection, when connections were distinct. -/
theorem destroy_loop_absent (conn : Option Nat) (l : List (joint A R σ))
    (slots : Nat → connection) (hd : joints_distinct l) :
    ∀ jnt ∈ (destroy_loop conn l slots).1, jnt.connection ≠ conn := by
  induction l with
  | nil => simp [destroy_loop]
  | cons x rest ih =>
    have hd' : joints_distinct rest := by
      unfold joints_distinct at hd ⊢
      rw [List.map_cons, List.nodup_cons] at hd
      exact hd.2
    by_cases hx : x.connection = conn
    · intro jnt hj
      simp only [destroy_loop, hx, if_true] at hj
      unfold joints_distinct at hd
      rw [List.map_cons, List.nodup_cons] at hd
      intro hcontra
      apply hd.1
      rw [hx, ← hcontra]
      exact List.mem_map_of_mem _ hj
    · intro jnt hj
      simp only [destroy_loop, hx, if_false, List.mem_cons] at hj
      rcases hj with rfl | hj
      · exact hx
      · exact ih hd' jnt hj


/-! ## The invariant of reachable states -/

theorem clear_owner_cases (slots : Nat → connection) (owner : Option Nat) (p : Nat) :
    clear_owner slots owner p = slots p ∨
      clear_owner slots owner p = { _data := none, _deleter := none } := by
  cases owner with
  | none => exact Or.inl rfl
  | some q =>
    by_cases hpq : p = q
    · subst hpq
      exact Or.inr (by simp [clear_owner])
    · exact Or.inl (by simp [clear_owner, Function.update_noteq hpq])

theorem clear_owners_cases (l : List (joint A R σ)) (slots : Nat → connection) (p : Nat) :
    clear_owners l slots p = slots p ∨
      clear_owners l slots p = { _data := none, _deleter := none } := by
  induction l generalizing slots with
  | nil => exact Or.inl rfl
  | cons jnt rest ih =>
    rcases ih (clear_owner slots jnt.owner) with h | h
    · rcases clear_owner_cases slots jnt.owner p with h' | h'
      · exact Or.inl (by simp [clear_owners, h, h'])
      · exact Or.inr (by simp [clear_owners, h, h'])
    · exact Or.inr (by simp [clear_owners, h])

theorem destroy_loop_slots_cases (conn : Option Nat) (l : List (joint A R σ))
    (slots : Nat → connection) (p : Nat) :
    (destroy_loop conn l slots).2 p = slots p ∨
      (destroy_loop conn l slots).2 p = { _data := none, _deleter := none } := by
  induction l with
  | nil => exact Or.inl rfl
  | cons x rest ih =>
    by_cases hx : x.connection = conn
    · simpa [destroy_loop, hx] using clear_owner_cases slots x.owner p
    · simpa [destroy_loop, hx] using ih

/-- The invariant survives every step that drops joints, clears slots and
leaves the allocation counter alone. -/
theorem Invariant.shrink {w w' : World A R σ} (hI : Invariant w) (hf : w'.fresh = w.fresh)
    (hj : ∀ g, ((w'.signals g)._callbacks).Sublist (w.signals g)._callbacks)
    (hs : ∀ p, w'.slots p = w.slots p ∨ w'.slots p = { _data := none, _deleter := none }) :
    Invariant w' where
  allocated := by
    intro g jnt hjnt
    rw [hf]
    exact hI.allocated g jnt ((hj g).subset hjnt)
  distinct := by
    intro g
    exact List.Nodup.sublist ((hj g).map joint.connection) (hI.distinct g)
  slot_allocated := by
    intro p c hp
    rw [hf]
    rcases hs p with h | h
    · exact hI.slot_allocated p c (h ▸ hp)
    · rw [h] at hp
      cases hp
  linked := by
    intro p c g jnt hjnt hp hc
    rcases hs p with h | h
    · rw [h] at hp ⊢
      exact hI.linked p c g jnt ((hj g).subset hjnt) hp hc
    · rw [h] at hp
      cases hp

theorem destroy_connection_callbacks (w : World A R σ) (this : Nat) (conn : Option Nat) :
    ((signal.destroy_connection w this conn).signals this)._callbacks =
      (destroy_loop conn (w.signals this)._callbacks w.slots).1 := by
  simp [signal.destroy_connection]

theorem destroy_connection_other (w : World A R σ) (this : Nat) (conn : Option Nat) (g : Nat)
    (hg : g ≠ this) : (signal.destroy_connection w this conn).signals g = w.signals g := by
  simp [signal.destroy_connection, Function.update_noteq hg]

theorem destroy_connection_sublist (w : World A R σ) (this : Nat) (conn : Option Nat) (g : Nat) :
    (((signal.destroy_connection w this conn).signals g)._callbacks).Sublist
      (w.signals g)._callbacks := by
  by_cases hg : g = this
  · subst hg
    rw [destroy_connection_callbacks]
    exact destroy_loop_sublist _ _ _
  · rw [destroy_connection_other w this conn g hg]

theorem Invariant.destroy_connection {w : World A R σ} (hI : Invariant w) (this : Nat)
    (conn : Option Nat) : Invariant (signal.destroy_connection w this conn) :=
  hI.shrink rfl (destroy_connection_sublist w this conn)
    (fun p => destroy_loop_slots_cases conn _ w.slots p)

theorem Invariant.connect {w : World A R σ} (hI : Invariant w) (this : Nat)
    (fn : A → σ → R × σ) (owner : Option Nat) :
    Invariant (signal.connect w this fn owner).2 := by
  have hsig : ∀ g, (((signal.connect w this fn owner).2.signals g)._callbacks =
      (w.signals g)._callbacks ∧ g ≠ this) ∨
      (((signal.connect w this fn owner).2.signals g)._callbacks =
        (w.signals g)._callbacks ++
          [{ callback := fn, connection := some w.fresh, owner := owner }] ∧ g = this) := by
    intro g
    by_cases hg : g = this
    · subst hg
      exact Or.inr ⟨by simp [signal.connect, signal.create_connection], rfl⟩
    · exact Or.inl ⟨by simp [signal.connect, signal.create_connection,
        Function.update_noteq hg], hg⟩
  have hslot : ∀ p, ((signal.connect w this fn owner).2.slots p = w.slots p ∧ owner ≠ some p) ∨
      ((signal.connect w this fn owner).2.slots p =
        { _data := some w.fresh, _deleter := some this } ∧ owner = some p) := by
    intro p
    cases owner with
    | none => exact Or.inl ⟨rfl, by simp⟩
    | some q =>
      by_cases hpq : p = q
      · subst hpq
        exact Or.inr ⟨by simp [signal.connect, signal.create_connection], rfl⟩
      · refine Or.inl ⟨by simp [signal.connect, signal.create_connection,
          Function.update_noteq hpq], ?_⟩
        intro h
        exact hpq (Option.some.inj h).symm
  have hfresh : (signal.connect w this fn owner).2.fresh = w.fresh + 1 := rfl
  refine ⟨?_, ?_, ?_, ?_⟩
  · intro g jnt hjnt
    rw [hfresh]
    rcases hsig g with ⟨h, _⟩ | ⟨h, _⟩
    · rw [h] at hjnt
      obtain ⟨c, hc, hlt⟩ := hI.allocated g jnt hjnt
      exact ⟨c, hc, by omega⟩
    · rw [h, List.mem_append, List.mem_singleton] at hjnt
      rcases hjnt with hjnt | rfl
      · obtain ⟨c, hc, hlt⟩ := hI.allocated g jnt hjnt
        exact ⟨c, hc, by omega⟩
      · exact ⟨w.fresh, rfl, by omega⟩
  · intro g
    rcases hsig g with ⟨h, _⟩ | ⟨h, _⟩
    · rw [h]
      exact hI.distinct g
    · unfold joints_distinct
      rw [h, List.map_append, List.map_singleton]
      refine List.Nodup.append (hI.distinct g) (List.nodup_singleton _) ?_
      intro c hc1 hc2
      rw [List.mem_singleton] at hc2
      subst hc2
      obtain ⟨jnt, hjnt, hjc⟩ := List.mem_map.mp hc1
      obtain ⟨c, hc, hlt⟩ := hI.allocated g jnt hjnt
      rw [hc] at hjc
      have := Option.some.inj hjc
      omega
  · intro p c hp
    rw [hfresh]
    rcases hslot p with ⟨h, _⟩ | ⟨h, _⟩
    · rw [h] at hp
      have := hI.slot_allocated p c hp
      omega
    · rw [h] at hp
      have := Option.some.inj hp
      omega
  · intro p c g jnt hjnt hp hc
    rcases hslot p with ⟨hs, hown⟩ | ⟨hs, hown⟩
    · rw [hs] at hp ⊢
      have hclt := hI.slot_allocated p c hp
      rcases hsig g with ⟨h, _⟩ | ⟨h, _⟩
      · rw [h] at hjnt
        exact hI.linked p c g jnt hjnt hp hc
      · rw [h, List.mem_append, List.mem_singleton] at hjnt
        rcases hjnt with hjnt | rfl
        · exact hI.linked p c g jnt hjnt hp hc
        · have := Option.some.inj hc
          omega
    · rw [hs] at hp ⊢
      have hcf : w.fresh = c := Option.some.inj hp
      subst hcf
      rcases hsig g with ⟨h, _⟩ | ⟨h, hg⟩
      · rw [h] at hjnt
        obtain ⟨c', hc', hlt⟩ := hI.allocated g jnt hjnt
        rw [hc'] at hc
        have := Option.some.inj hc
        omega
      · rw [h, List.mem_append, List.mem_singleton] at hjnt
        rcases hjnt with hjnt | rfl
        · obtain ⟨c', hc', hlt⟩ := hI.allocated g jnt hjnt
          rw [hc'] at hc
          have := Option.some.inj hc
          omega
        · exact ⟨hown, by rw [hg]⟩

theorem Invariant.handle_set_lock {w w' : World A R σ} (hI : Invariant w) (h : connection)
    (lock : Bool) (hw : connection.set_lock w h lock = some w') : Invariant w' := by
  unfold connection.set_lock at hw
  cases hd : h._data with
  | none => simp [hd] at hw
  | some c =>
    simp only [hd, Option.some.injEq] at hw
    subst hw
    exact hI.shrink rfl (fun g => List.Sublist.refl _) (fun p => Or.inl rfl)

/-- Every reachable state satisfies the invariant. -/
theorem Reachable.invariant {w : World A R σ} (hr : Reachable w) : Invariant w := by
  induction hr with
  | init =>
    refine ⟨?_, ?_, ?_, ?_⟩
    · intro g jnt hjnt
      simp [World.init, signal.signal] at hjnt
    · intro g
      simp [World.init, signal.signal, joints_distinct]
    · intro p c hp
      simp [World.init, slot.slot] at hp
    · intro p c g jnt hjnt
      simp [World.init, signal.signal] at hjnt
  | connect this fn owner _ ih => exact ih.connect this fn owner
  | disconnect this h _ ih => exact ih.destroy_connection this h._data
  | disconnect_owner this owner _ ih =>
    cases owner with
    | none => exact ih
    | some p => exact ih.destroy_connection this _
  | disconnect_all this _ ih =>
    exact ih.shrink rfl (fun g => List.Sublist.refl _) (fun p => clear_owners_cases _ _ p)
  | set_lock this lock _ ih =>
    refine ih.shrink rfl (fun g => ?_) (fun p => Or.inl rfl)
    by_cases hg : g = this
    · subst hg
      simp [signal.set_lock]
    · simp [signal.set_lock, Function.update_noteq hg]
  | handle_disconnect h _ ih =>
    unfold connection.disconnect
    cases h._deleter with
    | none => exact ih
    | some g => exact ih.destroy_connection g _
  | handle_set_lock h lock _ hw ih => exact ih.handle_set_lock h lock hw
  | slot_disconnect p _ ih =>
    unfold slot.disconnect connection.disconnect
    cases (_ : connection)._deleter with
    | none => exact ih
    | some g => exact ih.destroy_connection g _
  | slot_set_lock p lock _ hw ih => exact ih.handle_set_lock _ lock hw

theorem Invariant.nonnull {w : World A R σ} (hI : Invariant w) (g : Nat) :
    joints_nonnull (w.signals g)._callbacks := by
  intro jnt hjnt
  obtain ⟨c, hc, _⟩ := hI.allocated g jnt hjnt
  simp [hc]


theorem destroy_connection_not_found (w : World A R σ) (this : Nat) (conn : Option Nat)
    (h : ∀ jnt ∈ (w.signals this)._callbacks, jnt.connection ≠ conn) :
    signal.destroy_connection w this conn = w := by
  unfold signal.destroy_connection
  simp only [destroy_loop_not_found conn _ w.slots h]
  rw [Function.update_eq_self]

theorem destroy_connection_idem (w : World A R σ) (this : Nat) (conn : Option Nat)
    (hd : joints_distinct (w.signals this)._callbacks) :
    signal.destroy_connection (signal.destroy_connection w this conn) this conn =
      signal.destroy_connection w this conn := by
  apply destroy_connection_not_found
  rw [destroy_connection_callbacks]
  exact destroy_loop_absent conn _ w.slots hd

theorem destroy_connection_cells (w : World A R σ) (this : Nat) (conn : Option Nat) :
    (signal.destroy_connection w this conn).cells = w.cells := rfl

/-- Removing the joint at position `i` through its connection state. -/
theorem destroy_connection_erase (w : World A R σ) (hI : Invariant w) (this i : Nat)
    (jnt : joint A R σ) (hi : (w.signals this)._callbacks[i]? = some jnt) :
    ((signal.destroy_connection w this jnt.connection).signals this)._callbacks =
      (w.signals this)._callbacks.eraseIdx i := by
  rw [destroy_connection_callbacks, destroy_loop_distinct _ w.slots (hI.distinct this) i jnt hi]

theorem scenario_reachable : Reachable scenario :=
  Reachable.connect 0 _ none (Reachable.connect 0 _ none (Reachable.connect 0 _ none Reachable.init))

theorem scenario_owned_reachable : Reachable scenario_owned :=
  Reachable.connect 0 _ (some 8)
    (Reachable.connect 0 _ none (Reachable.connect 0 _ (some 7) Reachable.init))

/-- C4. `connect` appends: the joint list after `connect(callback, owner)` is the
old list followed by one new joint holding that callback and that owner, the
signal's lock flag is unchanged, and the returned handle points to the
connection state of the new joint, a newly allocated one. -/
theorem connect_appends (w : World A R σ) (this : Nat) (fn : A → σ → R × σ)
    (owner : Option Nat) :
    ∃ jnt : joint A R σ,
      ((signal.connect w this fn owner).2.signals this)._callbacks =
        (w.signals this)._callbacks ++ [jnt] ∧
      jnt.callback = fn ∧ jnt.owner = owner ∧
      ((signal.connect w this fn owner).2.signals this)._locked = (w.signals this)._locked ∧
      (signal.connect w this fn owner).1._data = jnt.connection ∧
      jnt.connection = some w.fresh :=
  ⟨{ callback := fn, connection := some w.fresh, owner := owner },
    by simp [signal.connect, signal.create_connection], rfl, rfl,
    by simp [signal.connect, signal.create_connection], rfl, rfl⟩

/-- C6. Disconnect by handle is a no-op when not found, hence idempotent: when
the handle's connection state is that of no registered joint, `disconnect(h)` on
the signal, and `h.disconnect()` through the handle's own removal operation,
leave the whole state (joint lists, signal locks, slots) unchanged; in a state
produced by the public operations a second disconnect with the same handle
changes nothing after the first. -/
theorem disconnect_not_found_noop (w : World A R σ) (this : Nat) (h : connection) :
    ((∀ jnt ∈ (w.signals this)._callbacks, jnt.connection ≠ h._data) →
        signal.disconnect w this h = w) ∧
      ((∀ g, h._deleter = some g → ∀ jnt ∈ (w.signals g)._callbacks,
          jnt.connection ≠ h._data) → connection.disconnect w h = w) ∧
      (Reachable w →
        signal.disconnect (signal.disconnect w this h) this h = signal.disconnect w this h ∧
        connection.disconnect (connection.disconnect w h) h = connection.disconnect w h) := by
  refine ⟨fun hnf => destroy_connection_not_found w this h._data hnf, fun hnf => ?_, fun hr => ?_⟩
  · unfold connection.disconnect
    cases hd : h._deleter with
    | none => rfl
    | some g => exact destroy_connection_not_found w g h._data (hnf g hd)
  · refine ⟨destroy_connection_idem w this h._data (hr.invariant.distinct this), ?_⟩
    unfold connection.disconnect
    cases h._deleter with
    | none => rfl
    | some g => exact destroy_connection_idem w g h._data (hr.invariant.distinct g)

/-- The scenario: a handle of an unknown connection changes nothing, and the
handle of `x*2` removes its joint once, the second call finding nothing. -/
theorem disconnect_not_found_noop_witness :
    signal.disconnect scenario 0 (connection.mk (some 5) (some 0)) = scenario ∧
      signal.disconnect (signal.disconnect scenario 0 (connection.mk (some 1) (some 0))) 0
          (connection.mk (some 1) (some 0)) =
        signal.disconnect scenario 0 (connection.mk (some 1) (some 0)) :=
  ⟨(disconnect_not_found_noop scenario 0 (connection.mk (some 5) (some 0))).1 (by decide),
    ((disconnect_not_found_noop scenario 0 (connection.mk (some 1) (some 0))).2.2
      scenario_reachable).1⟩


/-- A slot owns no joint exactly when no joint holds its back-reference. -/
theorem not_owns_not_found (w : World A R σ) (hI : Invariant w) (p g : Nat)
    (hno : ¬ ∃ i, slot_owns w p g i) :
    ∀ jnt ∈ (w.signals g)._callbacks, jnt.connection ≠ (w.slots p)._data := by
  intro jnt hjnt heq
  obtain ⟨c, hc, _⟩ := hI.allocated g jnt hjnt
  have hp : (w.slots p)._data = some c := by rw [← heq, hc]
  obtain ⟨ho, hdel⟩ := hI.linked p c g jnt hjnt hp hc
  obtain ⟨i, hi, hget⟩ := List.mem_iff_getElem.mp hjnt
  exact hno ⟨i, jnt, by rw [List.getElem?_eq_getElem hi, hget], ho, heq.symm, hdel⟩

/-- C7. Disconnect by owner pointer: in a state produced by the public
operations, `disconnect(owner)` with a null owner, or with a slot that owns no
joint of this signal, leaves the state and so the joint list unchanged; with a
slot that owns the joint at position `i` it erases that joint and no other. -/
theorem disconnect_owner_cases (w : World A R σ) (hr : Reachable w) (this : Nat) :
    signal.disconnect_owner w this none = w ∧
      (∀ p, (¬ ∃ i, slot_owns w p this i) → signal.disconnect_owner w this (some p) = w) ∧
      (∀ p i, slot_owns w p this i →
        ((signal.disconnect_owner w this (some p)).signals this)._callbacks =
          (w.signals this)._callbacks.eraseIdx i) := by
  refine ⟨rfl, fun p hno => ?_, fun p i ho => ?_⟩
  · exact destroy_connection_not_found w this _ (not_owns_not_found w hr.invariant p this hno)
  · obtain ⟨jnt, hi, _, hdata, _⟩ := ho
    unfold signal.disconnect_owner
    simp only [hdata]
    exact destroy_connection_erase w hr.invariant this i jnt hi

/-- The scenario with owners: the unattached slot `9` changes nothing, the slot
`7` owning `x+1` removes that joint and leaves `x*2` and `x-1`. -/
theorem disconnect_owner_cases_witness :
    signal.disconnect_owner scenario_owned 0 (some 9) = scenario_owned ∧
      ((signal.disconnect_owner scenario_owned 0 (some 7)).signals 0)._callbacks.map
        joint.connection = [some 1, some 2] :=
  ⟨(disconnect_owner_cases scenario_owned scenario_owned_reachable 0).2.1 9
      (fun ⟨_, jnt, hi, _, hd, _⟩ =>
        scenario_owned_reachable.invariant.nonnull 0 jnt (List.getElem?_mem hi) hd.symm),
    congrArg (List.map joint.connection)
      ((disconnect_owner_cases scenario_owned scenario_owned_reachable 0).2.2 7 0
        ⟨_, rfl, rfl, rfl, rfl⟩)⟩

theorem clear_owners_named (l : List (joint A R σ)) (slots : Nat → connection) (p : Nat)
    (jnt : joint A R σ) (hj : jnt ∈ l) (ho : jnt.owner = some p) :
    clear_owners l slots p = { _data := none, _deleter := none } := by
  induction l generalizing slots with
  | nil => simp at hj
  | cons x rest ih =>
    rw [List.mem_cons] at hj
    rcases hj with rfl | hj
    · rcases clear_owners_cases rest (clear_owner slots jnt.owner) p with h | h
      · rw [clear_owners, h]
        simp [ho, clear_owner]
      · rw [clear_owners, h]
    · exact ih _ hj

/-- C9. Signal destruction neutralises slots: after the destructor of a signal
has run, every slot that one of its joints names as owner has a null connection
state and an empty removal operation, so a later `disconnect()` on that slot,
and its destruction, change nothing. -/
theorem signal_destruction_neutralises (w : World A R σ) (this p : Nat) (jnt : joint A R σ)
    (hj : jnt ∈ (w.signals this)._callbacks) (ho : jnt.owner = some p) :
    (signal.destructor w this).slots p = { _data := none, _deleter := none } ∧
      slot.disconnect (signal.destructor w this) p = signal.destructor w this ∧
      slot.destructor (signal.destructor w this) p = signal.destructor w this := by
  have hs : (signal.destructor w this).slots p = { _data := none, _deleter := none } :=
    clear_owners_named _ w.slots p jnt hj ho
  have hd : slot.disconnect (signal.destructor w this) p = signal.destructor w this := by
    simp [slot.disconnect, connection.disconnect, hs]
  exact ⟨hs, hd, hd⟩

/-- The scenario with owners: destroying the signal clears the slot `7`. -/
theorem signal_destruction_neutralises_witness :
    (scenario_owned.slots 7) = connection.mk (some 0) (some 0) ∧
      (signal.destructor scenario_owned 0).slots 7 = connection.mk none none :=
  ⟨rfl, (signal_destruction_neutralises scenario_owned 0 7
    { callback := logged 1 (fun x => x + 1), connection := some 0, owner := some 7 }
    (List.mem_cons_self _ _) rfl).1⟩

/-- C10. Signal-wide lock: after `set_lock(true)` a standard invocation runs no
callback and returns `R()`; `set_lock` writes the signal's own flag only (joint
list, connection lock flags, slots and other signals are unchanged) and
`is_locked()` returns the value written; so unlocking a signal that was unlocked
before it was locked restores the state, and with it every invocation. -/
theorem signal_wide_lock [Inhabited R] (moved : A → A) (w : World A R σ) (this : Nat)
    (args : A) (st : σ) :
    signal.call moved (signal.set_lock w this true) this args st = some (default, st) ∧
      (∀ lock,
        ((signal.set_lock w this lock).signals this)._callbacks = (w.signals this)._callbacks ∧
        (signal.set_lock w this lock).cells = w.cells ∧
        (signal.set_lock w this lock).slots = w.slots ∧
        (∀ g, g ≠ this → (signal.set_lock w this lock).signals g = w.signals g) ∧
        signal.is_locked (signal.set_lock w this lock) this = lock) ∧
      ((w.signals this)._locked = false →
        signal.set_lock (signal.set_lock w this true) this false = w ∧
        signal.call moved (signal.set_lock (signal.set_lock w this true) this false) this
            args st =
          signal.call moved w this args st) := by
  refine ⟨by simp [signal.call, signal.set_lock], fun lock => ⟨by simp [signal.set_lock], rfl, rfl,
    fun g hg => by simp [signal.set_lock, Function.update_noteq hg],
    by simp [signal.is_locked, signal.set_lock]⟩, fun hu => ?_⟩
  have hw : signal.set_lock (signal.set_lock w this true) this false = w := by
    have hs : ({ _locked := false, _callbacks := (w.signals this)._callbacks } : signal A R σ) =
        w.signals this := by
      rw [← hu]
    simp [signal.set_lock, hs]
  exact ⟨hw, by rw [hw]⟩

/-- The scenario: locked, the signal returns `0` and runs nothing; unlocked
again it returns `9` and runs all three callbacks. -/
theorem signal_wide_lock_witness :
    signal.call id (signal.set_lock scenario 0 true) 0 10 [] = some (0, []) ∧
      signal.call id (signal.set_lock (signal.set_lock scenario 0 true) 0 false) 0 10 [] =
        some (9, [1, 2, 3]) :=
  ⟨(signal_wide_lock id scenario 0 10 []).1,
    ((signal_wide_lock id scenario 0 10 []).2.2 rfl).2.trans rfl⟩


/-! ## Connection locks -/

theorem filter_all_but_one (cells : Nat → connection_data) (l : List (joint A R σ)) (i : Nat)
    (h : ∀ k jnt, l[k]? = some jnt → (joint_locked cells jnt = true ↔ k = i)) :
    l.filter (fun jnt => !joint_locked cells jnt) = l.eraseIdx i := by
  induction l generalizing i with
  | nil => rfl
  | cons x rest ih =>
    cases i with
    | zero =>
      have hx : joint_locked cells x = true := (h 0 x (by simp)).mpr rfl
      have hrest : ∀ jnt ∈ rest, joint_locked cells jnt = false := by
        intro jnt hjnt
        obtain ⟨k, hk, hget⟩ := List.mem_iff_getElem.mp hjnt
        have hne := (h (k + 1) jnt (by simp [List.getElem?_eq_getElem hk, hget])).not.mpr
          (by omega)
        simpa using hne
      rw [List.filter_cons, hx]
      simp only [Bool.not_true, Bool.false_eq_true, if_false, List.eraseIdx_cons_zero]
      exact List.filter_eq_self.mpr (fun jnt hjnt => by simp [hrest jnt hjnt])
    | succ i =>
      have hx : joint_locked cells x = false := by
        have hne := (h 0 x (by simp)).not.mpr (by omega)
        simpa using hne
      rw [List.filter_cons, hx]
      simp only [Bool.not_false, if_true, List.eraseIdx_cons_succ]
      rw [ih i (fun k jnt hk => by
        have := h (k + 1) jnt (by simpa using hk)
        simpa using this)]

/-- C11. Per-connection lock is shared and selective: `set_lock(b)` through a
holder of the connection state `c` succeeds, every holder of `c` then reads `b`
with `is_locked()`, the flag of every other connection state reads as before,
and signals and slots are untouched; in a state where exactly the joint at
position `i` is connection-locked, both invocations of the unlocked signal run
all the other joints in registration order and not the locked one. -/
theorem connection_lock_shared [Inhabited R] (w : World A R σ) (h : connection) (c : Nat)
    (b : Bool) (hc : h._data = some c) :
    (∃ w', connection.set_lock w h b = some w' ∧
        (∀ h' : connection, h'._data = some c → connection.is_locked w' h' = some b) ∧
        (∀ h' : connection, h'._data ≠ some c →
          connection.is_locked w' h' = connection.is_locked w h') ∧
        w'.signals = w.signals ∧ w'.slots = w.slots) ∧
      (∀ (moved : A → A) (u : World A R σ) (this i : Nat) (args : A) (agg : List R → R)
          (st : σ),
        joints_nonnull (u.signals this)._callbacks →
        (u.signals this)._locked = false →
        i < (u.signals this)._callbacks.length →
        (∀ k jnt, (u.signals this)._callbacks[k]? = some jnt →
          (joint_locked u.cells jnt = true ↔ k = i)) →
        (signal.call moved u this args st).map Prod.snd =
            some (run_callbacks moved ((u.signals this)._callbacks.eraseIdx i) args st) ∧
          signal.call_agg moved u this args agg st =
            some (agg (collect_results moved ((u.signals this)._callbacks.eraseIdx i) args st),
              run_callbacks moved ((u.signals this)._callbacks.eraseIdx i) args st)) := by
  refine ⟨⟨{ w with cells := Function.update w.cells c { locked := b } },
    by simp [connection.set_lock, hc], ?_, ?_, rfl, rfl⟩, ?_⟩
  · intro h' hc'
    simp [connection.is_locked, hc']
  · intro h' hc'
    cases hd : h'._data with
    | none => simp [connection.is_locked, hd]
    | some c' =>
      have hne : c' ≠ c := fun heq => hc' (by rw [hd, heq])
      simp [connection.is_locked, hd, Function.update_noteq hne]
  · intro moved u this i args agg st hnn hu hi hone
    have hf := filter_all_but_one u.cells (u.signals this)._callbacks i hone
    have hne : (u.signals this)._callbacks ≠ [] := List.ne_nil_of_length_pos (by omega)
    refine ⟨?_, ?_⟩
    · rw [signal_call_state moved u this args st hnn hu hne, hf]
    · rw [signal_call_agg_eq moved u this args agg st hnn hu, hf]

/-- The scenario: locking connection `1` through a handle is read back through
a copy of the handle, connection `0` still reads unlocked, and the invocation
then runs `x+1` and `x-1` only. -/
theorem connection_lock_shared_witness :
    connection.set_lock scenario (connection.mk (some 1) (some 0)) true =
        some (scenario_locked 1) ∧
      connection.is_locked (scenario_locked 1) (connection.mk (some 1) none) = some true ∧
      connection.is_locked (scenario_locked 1) (connection.mk (some 0) (some 0)) = some false ∧
      (signal.call id (scenario_locked 1) 0 10 []).map Prod.snd = some [1, 3] :=
  ⟨rfl, rfl, rfl,
    ((connection_lock_shared scenario (connection.mk (some 1) (some 0)) 1 true rfl).2
      id (scenario_locked 1) 0 1 10 List.sum [] (by unfold joints_nonnull; decide) rfl
      (by decide)
      (by
        intro k jnt hk
        match k, hk with
        | 0, hk => cases hk; decide
        | 1, hk => cases hk; decide
        | 2, hk => cases hk; decide
        | (k + 3), hk => cases hk)).1⟩

/-- C12. `disconnect_all` detaches every owner: after the call, every slot that
a joint of the signal names as owner has a null connection state and an empty
removal operation, so its later `disconnect()` and its destruction change
nothing, neither in a signal nor in a slot. -/
theorem disconnect_all_detaches (w : World A R σ) (this p : Nat) (jnt : joint A R σ)
    (hj : jnt ∈ (w.signals this)._callbacks) (ho : jnt.owner = some p) :
    (signal.disconnect_all w this).slots p = { _data := none, _deleter := none } ∧
      slot.disconnect (signal.disconnect_all w this) p = signal.disconnect_all w this ∧
      slot.destructor (signal.disconnect_all w this) p = signal.disconnect_all w this := by
  have hs : (signal.disconnect_all w this).slots p = { _data := none, _deleter := none } :=
    clear_owners_named _ w.slots p jnt hj ho
  have hd : slot.disconnect (signal.disconnect_all w this) p = signal.disconnect_all w this := by
    simp [slot.disconnect, connection.disconnect, hs]
  exact ⟨hs, hd, hd⟩

/-- The scenario with owners: `disconnect_all` clears the slots `7` and `8`. -/
theorem disconnect_all_detaches_witness :
    (scenario_owned.slots 8) = connection.mk (some 2) (some 0) ∧
      (signal.disconnect_all scenario_owned 0).slots 8 = connection.mk none none ∧
      slot.destructor (signal.disconnect_all scenario_owned 0) 8 =
        signal.disconnect_all scenario_owned 0 :=
  ⟨rfl,
    (disconnect_all_detaches scenario_owned 0 8
      { callback := logged 3 (fun x => x - 1), connection := some 2, owner := some 8 }
      (List.mem_cons_of_mem _ (List.mem_cons_of_mem _ (List.mem_cons_self _ _))) rfl).1,
    (disconnect_all_detaches scenario_owned 0 8
      { callback := logged 3 (fun x => x - 1), connection := some 2, owner := some 8 }
      (List.mem_cons_of_mem _ (List.mem_cons_of_mem _ (List.mem_cons_self _ _))) rfl).2.2⟩


/-! ## Linkage of slots and joints -/

theorem destroy_loop_keeps (conn : Option Nat) (l : List (joint A R σ))
    (slots : Nat → connection) (jnt : joint A R σ) (hj : jnt ∈ l)
    (hne : jnt.connection ≠ conn) : jnt ∈ (destroy_loop conn l slots).1 := by
  induction l with
  | nil => simp at hj
  | cons x rest ih =>
    by_cases hx : x.connection = conn
    · rw [List.mem_cons] at hj
      rcases hj with rfl | hj
      · exact absurd hx hne
      · simpa [destroy_loop, hx] using hj
    · rw [List.mem_cons] at hj
      rcases hj with rfl | hj
      · simp [destroy_loop, hx]
      · simp [destroy_loop, hx, ih hj]

theorem destroy_loop_found (conn : Option Nat) (l : List (joint A R σ))
    (slots : Nat → connection) (h : ∃ jnt ∈ l, jnt.connection = conn) :
    ∃ j0 ∈ l, j0.connection = conn ∧ (destroy_loop conn l slots).2 = clear_owner slots j0.owner := by
  induction l with
  | nil => simp at h
  | cons x rest ih =>
    by_cases hx : x.connection = conn
    · exact ⟨x, List.mem_cons_self _ _, hx, by simp [destroy_loop, hx]⟩
    · obtain ⟨jnt, hj, hjc⟩ := h
      rw [List.mem_cons] at hj
      rcases hj with rfl | hj
      · exact absurd hjc hx
      · obtain ⟨j0, hj0, hc0, hs0⟩ := ih ⟨jnt, hj, hjc⟩
        exact ⟨j0, List.mem_cons_of_mem _ hj0, hc0, by simp [destroy_loop, hx, hs0]⟩

theorem destroy_loop_length (conn : Option Nat) (l : List (joint A R σ))
    (slots : Nat → connection) : l.length ≤ (destroy_loop conn l slots).1.length + 1 := by
  induction l with
  | nil => simp [destroy_loop]
  | cons x rest ih =>
    by_cases hx : x.connection = conn
    · simp [destroy_loop, hx]
    · simp only [destroy_loop, hx, if_false, List.length_cons]
      omega

theorem clear_owner_cleared (slots : Nat → connection) (p : Nat) :
    clear_owner slots (some p) p = { _data := none, _deleter := none } := by
  simp [clear_owner]

/-- The slots after `destroy_connection` are the old ones, or the old ones with
the owner of a removed joint cleared. -/
theorem destroy_connection_slots (w : World A R σ) (this : Nat) (conn : Option Nat) :
    (signal.destroy_connection w this conn).slots = w.slots ∨
      ∃ j0 ∈ (w.signals this)._callbacks, j0.connection = conn ∧
        (signal.destroy_connection w this conn).slots = clear_owner w.slots j0.owner := by
  by_cases h : ∃ jnt ∈ (w.signals this)._callbacks, jnt.connection = conn
  · exact Or.inr (destroy_loop_found conn _ w.slots h)
  · left
    have hnf : ∀ jnt ∈ (w.signals this)._callbacks, jnt.connection ≠ conn :=
      fun jnt hj hc => h ⟨jnt, hj, hc⟩
    rw [destroy_connection_not_found w this conn hnf]

/-- The linkage survives every step that keeps the joints and only clears slots. -/
theorem Linkage.clear {w w' : World A R σ} (hL : Linkage w)
    (hj : ∀ g, (w'.signals g)._callbacks = (w.signals g)._callbacks)
    (hs : ∀ p, w'.slots p = w.slots p ∨ w'.slots p = { _data := none, _deleter := none }) :
    Linkage w' where
  cross := by
    intro g g' jnt hjnt jnt' hjnt' hc
    rw [hj g] at hjnt
    rw [hj g'] at hjnt'
    exact hL.cross g g' jnt hjnt jnt' hjnt' hc
  live := by
    intro p c hp
    rcases hs p with h | h
    · rw [h] at hp ⊢
      obtain ⟨g, hg, jnt, hjnt, hc⟩ := hL.live p c hp
      exact ⟨g, hg, jnt, by rw [hj g]; exact hjnt, hc⟩
    · rw [h] at hp
      cases hp
  bound := by
    intro p hp
    rcases hs p with h | h
    · rw [h] at hp ⊢
      exact hL.bound p hp
    · rw [h]

theorem Linkage.after_destroy {w : World A R σ} (hI : Invariant w) (hL : Linkage w)
    (this : Nat) (conn : Option Nat) : Linkage (signal.destroy_connection w this conn) where
  cross := by
    intro g g' jnt hjnt jnt' hjnt' hc
    exact hL.cross g g' jnt ((destroy_connection_sublist w this conn g).subset hjnt) jnt'
      ((destroy_connection_sublist w this conn g').subset hjnt') hc
  live := by
    intro p c hp
    have hsame : (signal.destroy_connection w this conn).slots p = w.slots p := by
      rcases destroy_loop_slots_cases conn (w.signals this)._callbacks w.slots p with h | h
      · exact h
      · have : (signal.destroy_connection w this conn).slots p =
            { _data := none, _deleter := none } := h
        rw [this] at hp
        cases hp
    rw [hsame] at hp ⊢
    obtain ⟨g, hg, jnt, hjnt, hc⟩ := hL.live p c hp
    refine ⟨g, hg, jnt, ?_, hc⟩
    by_cases hgt : g = this
    · subst hgt
      rw [destroy_connection_callbacks]
      apply destroy_loop_keeps conn _ w.slots jnt hjnt
      intro hconn
      rcases destroy_connection_slots w g conn with hs | ⟨j0, hj0, hc0, hs⟩
      · obtain ⟨j0, hj0, hc0, hs0⟩ := destroy_loop_found conn _ w.slots ⟨jnt, hjnt, hconn⟩
        have hown := (hI.linked p c g j0 hj0 hp (by rw [hc0, ← hconn, hc])).1
        have hcl : (signal.destroy_connection w g conn).slots p =
            { _data := none, _deleter := none } := by
          show (destroy_loop conn _ w.slots).2 p = _
          rw [hs0, hown, clear_owner_cleared]
        rw [hsame] at hcl
        rw [hcl] at hp
        cases hp
      · have hown := (hI.linked p c g j0 hj0 hp (by rw [hc0, ← hconn, hc])).1
        have hcl : (signal.destroy_connection w g conn).slots p =
            { _data := none, _deleter := none } := by
          rw [hs, hown, clear_owner_cleared]
        rw [hsame] at hcl
        rw [hcl] at hp
        cases hp
    · rw [destroy_connection_other w this conn g hgt]
      exact hjnt
  bound := by
    intro p hp
    rcases destroy_loop_slots_cases conn (w.signals this)._callbacks w.slots p with h | h
    · have h' : (signal.destroy_connection w this conn).slots p = w.slots p := h
      rw [h'] at hp ⊢
      exact hL.bound p hp
    · have h' : (signal.destroy_connection w this conn).slots p =
          { _data := none, _deleter := none } := h
      rw [h']

/-- The joint list of a signal after `connect` on the signal at `this`. -/
theorem connect_callbacks (w : World A R σ) (this : Nat) (fn : A → σ → R × σ)
    (owner : Option Nat) (g : Nat) :
    ((signal.connect w this fn owner).2.signals g)._callbacks =
      if g = this then
        (w.signals g)._callbacks ++ [{ callback := fn, connection := some w.fresh, owner := owner }]
      else (w.signals g)._callbacks := by
  by_cases hg : g = this
  · subst hg
    simp [signal.connect, signal.create_connection]
  · simp [signal.connect, signal.create_connection, Function.update_noteq hg, hg]

/-- The slots after `connect`. -/
theorem connect_slots (w : World A R σ) (this : Nat) (fn : A → σ → R × σ)
    (owner : Option Nat) (p : Nat) :
    (signal.connect w this fn owner).2.slots p =
      if owner = some p then { _data := some w.fresh, _deleter := some this } else w.slots p := by
  cases owner with
  | none => simp [signal.connect, signal.create_connection]
  | some q =>
    by_cases hpq : p = q
    · subst hpq
      simp [signal.connect, signal.create_connection]
    · have hne : ¬ (some q = some p) := fun h => hpq (Option.some.inj h).symm
      simp [signal.connect, signal.create_connection, Function.update_noteq hpq, hne]

theorem Linkage.after_connect {w : World A R σ} (hI : Invariant w) (hL : Linkage w) (this : Nat)
    (fn : A → σ → R × σ) (owner : Option Nat) : Linkage (signal.connect w this fn owner).2 where
  cross := by
    intro g g' jnt hjnt jnt' hjnt' hc
    rw [connect_callbacks] at hjnt hjnt'
    by_cases hg : g = this <;> by_cases hg' : g' = this
    · rw [hg, hg']
    · simp only [hg, hg', if_true, if_false, List.mem_append, List.mem_singleton] at hjnt hjnt'
      rcases hjnt with hjnt | rfl
      · exact (hg' (hL.cross this g' jnt hjnt jnt' hjnt' hc).symm).elim
      · obtain ⟨c, hc', hlt⟩ := hI.allocated g' jnt' hjnt'
        rw [hc'] at hc
        have := Option.some.inj hc
        omega
    · simp only [hg, hg', if_true, if_false, List.mem_append, List.mem_singleton] at hjnt hjnt'
      rcases hjnt' with hjnt' | rfl
      · exact (hg (hL.cross g this jnt hjnt jnt' hjnt' hc)).elim
      · obtain ⟨c, hc', hlt⟩ := hI.allocated g jnt hjnt
        rw [hc'] at hc
        have := Option.some.inj hc
        omega
    · simp only [hg, hg', if_false] at hjnt hjnt'
      exact hL.cross g g' jnt hjnt jnt' hjnt' hc
  live := by
    intro p c hp
    rw [connect_slots] at hp ⊢
    by_cases ho : owner = some p
    · simp only [ho, if_true] at hp ⊢
      refine ⟨this, rfl, { callback := fn, connection := some w.fresh, owner := some p }, ?_, ?_⟩
      · rw [connect_callbacks]
        simp
      · simpa using hp
    · simp only [ho, if_false] at hp ⊢
      obtain ⟨g, hg, jnt, hjnt, hc⟩ := hL.live p c hp
      refine ⟨g, hg, jnt, ?_, hc⟩
      rw [connect_callbacks]
      by_cases hgt : g = this
      · subst hgt
        simp [hjnt]
      · simp [hgt, hjnt]
  bound := by
    intro p hp
    rw [connect_slots] at hp ⊢
    by_cases ho : owner = some p
    · simp [ho] at hp
    · simp only [ho, if_false] at hp ⊢
      exact hL.bound p hp

theorem set_lock_callbacks (w : World A R σ) (this : Nat) (lock : Bool) (g : Nat) :
    ((signal.set_lock w this lock).signals g)._callbacks = (w.signals g)._callbacks := by
  by_cases hg : g = this
  · subst hg
    simp [signal.set_lock]
  · simp [signal.set_lock, Function.update_noteq hg]

theorem handle_set_lock_eq {w w' : World A R σ} {h : connection} {lock : Bool}
    (hw : connection.set_lock w h lock = some w') :
    w'.signals = w.signals ∧ w'.slots = w.slots ∧ w'.fresh = w.fresh := by
  unfold connection.set_lock at hw
  cases hd : h._data with
  | none => simp [hd] at hw
  | some c =>
    simp only [hd, Option.some.injEq] at hw
    subst hw
    exact ⟨rfl, rfl, rfl⟩

theorem Linkage.handle_disconnect {w : World A R σ} (hI : Invariant w) (hL : Linkage w)
    (h : connection) : Linkage (connection.disconnect w h) := by
  unfold connection.disconnect
  cases h._deleter with
  | none => exact hL
  | some g => exact hL.after_destroy hI g _

/-- Every reachable state satisfies the linkage. -/
theorem Reachable.linkage {w : World A R σ} (hr : Reachable w) : Linkage w := by
  induction hr with
  | init =>
    refine ⟨?_, ?_, ?_⟩
    · intro g g' jnt hjnt
      simp [World.init, signal.signal] at hjnt
    · intro p c hp
      simp [World.init, slot.slot] at hp
    · intro p _
      rfl
  | connect this fn owner hr ih => exact ih.after_connect hr.invariant this fn owner
  | disconnect this h hr ih => exact ih.after_destroy hr.invariant this h._data
  | disconnect_owner this owner hr ih =>
    cases owner with
    | none => exact ih
    | some p => exact ih.after_destroy hr.invariant this _
  | disconnect_all this _ ih =>
    exact ih.clear (fun g => rfl) (fun p => clear_owners_cases _ _ p)
  | set_lock this lock _ ih =>
    exact ih.clear (fun g => set_lock_callbacks _ this lock g) (fun p => Or.inl rfl)
  | handle_disconnect h hr ih => exact ih.handle_disconnect hr.invariant h
  | handle_set_lock h lock _ hw ih =>
    obtain ⟨h1, h2, _⟩ := handle_set_lock_eq hw
    exact ih.clear (fun g => by rw [h1]) (fun p => Or.inl (by rw [h2]))
  | slot_disconnect p hr ih => exact ih.handle_disconnect hr.invariant _
  | slot_set_lock p lock _ hw ih =>
    obtain ⟨h1, h2, _⟩ := handle_set_lock_eq hw
    exact ih.clear (fun g => by rw [h1]) (fun p => Or.inl (by rw [h2]))


/-- The slots after removing the joint at position `i` through its connection state. -/
theorem destroy_connection_slots_erase (w : World A R σ) (hI : Invariant w) (this i : Nat)
    (jnt : joint A R σ) (hi : (w.signals this)._callbacks[i]? = some jnt) :
    (signal.destroy_connection w this jnt.connection).slots = clear_owner w.slots jnt.owner := by
  show (destroy_loop jnt.connection (w.signals this)._callbacks w.slots).2 = _
  rw [destroy_loop_distinct _ w.slots (hI.distinct this) i jnt hi]

/-- C15. Removal clears the owner: in a state produced by the public
operations, removing a registered joint that names the slot `p` as owner,
through `disconnect(handle)`, through `disconnect(owner)` or through a slot's
own `disconnect()`, leaves `p` with a null connection state and an empty
removal operation and every other slot as it was. -/
theorem removal_clears_owner (w : World A R σ) (hr : Reachable w) (this i p : Nat)
    (jnt : joint A R σ) (hi : (w.signals this)._callbacks[i]? = some jnt)
    (ho : jnt.owner = some p) :
    (∀ h : connection, h._data = jnt.connection →
        (signal.disconnect w this h).slots =
          Function.update w.slots p { _data := none, _deleter := none }) ∧
      (∀ q, (w.slots q)._data = jnt.connection →
        (signal.disconnect_owner w this (some q)).slots =
          Function.update w.slots p { _data := none, _deleter := none }) ∧
      (∀ q, (w.slots q)._data = jnt.connection → (w.slots q)._deleter = some this →
        (slot.disconnect w q).slots =
          Function.update w.slots p { _data := none, _deleter := none }) := by
  have hs := destroy_connection_slots_erase w hr.invariant this i jnt hi
  rw [ho] at hs
  refine ⟨fun h hh => ?_, fun q hq => ?_, fun q hq hdel => ?_⟩
  · unfold signal.disconnect
    rw [hh, hs]
    rfl
  · unfold signal.disconnect_owner
    simp only [hq, hs]
    rfl
  · unfold slot.disconnect connection.disconnect
    simp only [hdel, hq, hs]
    rfl

/-- The scenario with owners: removing `x+1`, owned by the slot `7`, through its
handle clears the slot `7` and leaves the slot `8` attached. -/
theorem removal_clears_owner_witness :
    (signal.disconnect scenario_owned 0 (connection.mk (some 0) (some 0))).slots 7 =
        connection.mk none none ∧
      (signal.disconnect scenario_owned 0 (connection.mk (some 0) (some 0))).slots 8 =
        connection.mk (some 2) (some 0) :=
  ⟨(congrFun ((removal_clears_owner scenario_owned scenario_owned_reachable 0 0 7 _ rfl rfl).1
      (connection.mk (some 0) (some 0)) rfl) 7).trans rfl,
    (congrFun ((removal_clears_owner scenario_owned scenario_owned_reachable 0 0 7 _ rfl rfl).1
      (connection.mk (some 0) (some 0)) rfl) 8).trans rfl⟩

/-- C16. Unattached slot is inert: on a slot that is as its constructor left it,
`disconnect()` and the destructor change nothing; in a state produced by the
public operations, `disconnect()` on any slot twice in a row gives the state
that one call gives. -/
theorem unattached_slot_inert (w : World A R σ) (p : Nat) :
    (w.slots p = slot.slot → slot.disconnect w p = w ∧ slot.destructor w p = w) ∧
      (Reachable w → slot.disconnect (slot.disconnect w p) p = slot.disconnect w p) := by
  refine ⟨fun hp => ?_, fun hr => ?_⟩
  · have hd : slot.disconnect w p = w := by
      simp [slot.disconnect, connection.disconnect, hp, slot.slot]
    exact ⟨hd, hd⟩
  · cases hdel : (w.slots p)._deleter with
    | none =>
      have hd : slot.disconnect w p = w := by
        simp [slot.disconnect, connection.disconnect, hdel]
      rw [hd, hd]
    | some g =>
      have hd : slot.disconnect w p = signal.destroy_connection w g (w.slots p)._data := by
        simp [slot.disconnect, connection.disconnect, hdel]
      rw [hd]
      rcases destroy_loop_slots_cases (w.slots p)._data (w.signals g)._callbacks w.slots p
        with h | h
      · have h' : (signal.destroy_connection w g (w.slots p)._data).slots p = w.slots p := h
        unfold slot.disconnect connection.disconnect
        rw [h']
        simp only [hdel]
        exact destroy_connection_idem w g _ (hr.invariant.distinct g)
      · have h' : (signal.destroy_connection w g (w.slots p)._data).slots p =
            { _data := none, _deleter := none } := h
        unfold slot.disconnect connection.disconnect
        rw [h']

/-- The scenario with owners: the slot `9` was never attached, the slot `7`
detaches once and its second `disconnect()` finds nothing to do. -/
theorem unattached_slot_inert_witness :
    slot.disconnect scenario_owned 9 = scenario_owned ∧
      slot.disconnect (slot.disconnect scenario_owned 7) 7 = slot.disconnect scenario_owned 7 :=
  ⟨((unattached_slot_inert scenario_owned 9).1 rfl).1,
    (unattached_slot_inert scenario_owned 7).2 scenario_owned_reachable⟩

/-- C17. Invocation with zero registrations is not the defined no-op of the
claim: on an unlocked signal without joints the standard invocation evaluates
`--_callbacks.cend()` (line 298), a step back from `begin()`, before any test of
the list, so it has no defined result; the aggregating invocation does loop zero
times and returns `agg([])`. -/
theorem empty_invocation_undefined :
    list_decr ((World.init : World Int Int (List Nat)).signals 0)._callbacks
        (list_end ((World.init : World Int Int (List Nat)).signals 0)._callbacks) = none ∧
      signal.call id (World.init : World Int Int (List Nat)) 0 10 [] = none ∧
      signal.call_agg id (World.init : World Int Int (List Nat)) 0 10 List.sum [] =
        some (0, []) :=
  ⟨rfl, rfl, rfl⟩

/-- C18. `disconnect_all` keeps the registrations: the call leaves every joint
list (callbacks, connection states, order, recorded owners), every signal lock
and every connection lock as they were, so both invocations run the same
callbacks and return the same result after it as before it. -/
theorem disconnect_all_keeps_registrations [Inhabited R] (w : World A R σ) (this : Nat) :
    (signal.disconnect_all w this).signals = w.signals ∧
      (signal.disconnect_all w this).cells = w.cells ∧
      (∀ moved g args st, signal.call moved (signal.disconnect_all w this) g args st =
        signal.call moved w g args st) ∧
      (∀ moved g args agg st,
        signal.call_agg moved (signal.disconnect_all w this) g args agg st =
          signal.call_agg moved w g args agg st) :=
  ⟨rfl, rfl, fun _ _ _ _ => rfl, fun _ _ _ _ _ => rfl⟩

/-- C19. A new connection starts unlocked: the handle `connect` returns reads
`is_locked() = false`; and in a state produced by the public operations, on an
unlocked signal the next standard invocation runs the not-locked joints that
were there before and then the new callback, called last with the pack as those
calls left it, whose result it returns. -/
theorem new_connection_unlocked [Inhabited R] (moved : A → A) (w : World A R σ)
    (this : Nat) (fn : A → σ → R × σ) (owner : Option Nat) (args : A) (st : σ) :
    connection.is_locked (signal.connect w this fn owner).2 (signal.connect w this fn owner).1 =
        some false ∧
      (Reachable w → (w.signals this)._locked = false →
        signal.call moved (signal.connect w this fn owner).2 this args st =
          some (fn
            (moved^[((w.signals this)._callbacks.filter
              (fun jnt => !joint_locked w.cells jnt)).length] args)
            (run_callbacks moved
              ((w.signals this)._callbacks.filter (fun jnt => !joint_locked w.cells jnt))
              args st))) := by
  refine ⟨by simp [connection.is_locked, signal.connect, signal.create_connection,
    signal.prepare_connection, connection.connection], fun hr hu => ?_⟩
  have hI := hr.invariant
  have hnn := (hI.connect this fn owner).nonnull this
  have hcells : (signal.connect w this fn owner).2.cells =
      Function.update w.cells w.fresh { locked := false } := rfl
  have hl : ((signal.connect w this fn owner).2.signals this)._locked = false := by
    simp [signal.connect, signal.create_connection, hu]
  have hold : unlocked_joints (Function.update w.cells w.fresh { locked := false })
      (w.signals this)._callbacks =
      (w.signals this)._callbacks.filter (fun jnt => !joint_locked w.cells jnt) := by
    unfold unlocked_joints
    apply List.filter_congr
    intro jnt hjnt
    obtain ⟨c, hc, hlt⟩ := hI.allocated this jnt hjnt
    have hne : c ≠ w.fresh := by omega
    simp [joint_locked, hc, Function.update_noteq hne]
  rw [signal_call_eq moved _ this args st hnn, hl, connect_callbacks]
  simp [joint_locked, hcells, hold]

/-- The scenario: after connecting `x*3` as a fourth callback the handle reads
unlocked and the invocation at `10` returns `30`, having run all four. -/
theorem new_connection_unlocked_witness :
    connection.is_locked (signal.connect scenario 0 (logged 4 (fun x => x * 3)) none).2
        (signal.connect scenario 0 (logged 4 (fun x => x * 3)) none).1 = some false ∧
      signal.call id (signal.connect scenario 0 (logged 4 (fun x => x * 3)) none).2 0 10 [] =
        some (30, [1, 2, 3, 4]) :=
  ⟨(new_connection_unlocked id scenario 0 (logged 4 (fun x => x * 3)) none 10 []).1,
    ((new_connection_unlocked id scenario 0 (logged 4 (fun x => x * 3)) none 10 []).2
      scenario_reachable rfl).trans rfl⟩

theorem joints_distinct_position (l : List (joint A R σ)) (hd : joints_distinct l) (i i' : Nat)
    (jnt jnt' : joint A R σ) (hi : l[i]? = some jnt) (hi' : l[i']? = some jnt')
    (hc : jnt.connection = jnt'.connection) : i = i' := by
  rcases Nat.lt_trichotomy i i' with h | h | h
  · exact absurd hc (joints_distinct_first l hd i' jnt' hi' i h jnt hi)
  · exact h
  · exact absurd hc.symm (joints_distinct_first l hd i jnt hi i' h jnt' hi')

/-- C20. Connection identities are pairwise distinct: in a state produced by
the public operations, two registered joints with the same connection state are
the same joint of the same signal; so after `destroy_connection` no joint of the
signal holds the removed connection state, and each disconnect shortens a joint
list by at most one. -/
theorem connection_identities_distinct (w : World A R σ) (hr : Reachable w) :
    (∀ (g g' i i' : Nat) (jnt jnt' : joint A R σ), (w.signals g)._callbacks[i]? = some jnt →
        (w.signals g')._callbacks[i']? = some jnt' →
        jnt.connection = jnt'.connection → g = g' ∧ i = i') ∧
      (∀ this conn,
        (∀ jnt ∈ ((signal.destroy_connection w this conn).signals this)._callbacks,
          jnt.connection ≠ conn) ∧
        ∀ g, (w.signals g)._callbacks.length ≤
          ((signal.destroy_connection w this conn).signals g)._callbacks.length + 1) ∧
      (∀ this h g, (w.signals g)._callbacks.length ≤
        ((signal.disconnect w this h).signals g)._callbacks.length + 1) ∧
      (∀ this owner g, (w.signals g)._callbacks.length ≤
        ((signal.disconnect_owner w this owner).signals g)._callbacks.length + 1) ∧
      (∀ h g, (w.signals g)._callbacks.length ≤
        ((connection.disconnect w h).signals g)._callbacks.length + 1) := by
  have hlen : ∀ this conn g, (w.signals g)._callbacks.length ≤
      ((signal.destroy_connection w this conn).signals g)._callbacks.length + 1 := by
    intro this conn g
    by_cases hg : g = this
    · subst hg
      rw [destroy_connection_callbacks]
      exact destroy_loop_length conn _ w.slots
    · rw [destroy_connection_other w this conn g hg]
      omega
  refine ⟨?_, fun this conn => ⟨?_, hlen this conn⟩, fun this h g => hlen this _ g,
    fun this owner g => ?_, fun h g => ?_⟩
  · intro g g' i i' jnt jnt' hi hi' hc
    have hg : g = g' :=
      hr.linkage.cross g g' jnt (List.getElem?_mem hi) jnt' (List.getElem?_mem hi') hc
    subst hg
    exact ⟨rfl, joints_distinct_position _ (hr.invariant.distinct g) i i' jnt jnt' hi hi' hc⟩
  · rw [destroy_connection_callbacks]
    exact destroy_loop_absent conn _ w.slots (hr.invariant.distinct this)
  · cases owner with
    | none => exact Nat.le_succ _
    | some p => exact hlen this _ g
  · unfold connection.disconnect
    cases h._deleter with
    | none => exact Nat.le_succ _
    | some g' => exact hlen g' _ g

/-- The scenario: the three joints hold the connection states `0`, `1`, `2`,
and a disconnect with the handle of `1` leaves two joints, none holding `1`. -/
theorem connection_identities_distinct_witness :
    (scenario.signals 0)._callbacks.map joint.connection = [some 0, some 1, some 2] ∧
      3 ≤ ((signal.disconnect scenario 0 (connection.mk (some 1) (some 0))).signals
        0)._callbacks.length + 1 :=
  ⟨rfl, (connection_identities_distinct scenario scenario_reachable).2.2.1 0
    (connection.mk (some 1) (some 0)) 0⟩


/-! ## Ownership under guarded `connect` -/

theorem ReachableAttached.guarded {w : World A R σ} (hr : ReachableAttached w) :
    ReachableGuarded w := by
  induction hr with
  | init => exact ReachableGuarded.init
  | connect this fn owner _ hg ih => exact ReachableGuarded.connect this fn owner ih hg
  | disconnect this h _ ih => exact ReachableGuarded.disconnect this h ih
  | disconnect_owner this owner _ ih => exact ReachableGuarded.disconnect_owner this owner ih
  | set_lock this lock _ ih => exact ReachableGuarded.set_lock this lock ih
  | handle_disconnect h _ ih => exact ReachableGuarded.handle_disconnect h ih
  | handle_set_lock h lock _ hw ih => exact ReachableGuarded.handle_set_lock h lock ih hw
  | slot_disconnect p _ ih => exact ReachableGuarded.slot_disconnect p ih
  | slot_set_lock p lock _ hw ih => exact ReachableGuarded.slot_set_lock p lock ih hw

theorem ReachableGuarded.reachable {w : World A R σ} (hr : ReachableGuarded w) :
    Reachable w := by
  induction hr with
  | init => exact Reachable.init
  | connect this fn owner _ _ ih => exact Reachable.connect this fn owner ih
  | disconnect this h _ ih => exact Reachable.disconnect this h ih
  | disconnect_owner this owner _ ih => exact Reachable.disconnect_owner this owner ih
  | disconnect_all this _ ih => exact Reachable.disconnect_all this ih
  | set_lock this lock _ ih => exact Reachable.set_lock this lock ih
  | handle_disconnect h _ ih => exact Reachable.handle_disconnect h ih
  | handle_set_lock h lock _ hw ih => exact Reachable.handle_set_lock h lock ih hw
  | slot_disconnect p _ ih => exact Reachable.slot_disconnect p ih
  | slot_set_lock p lock _ hw ih => exact Reachable.slot_set_lock p lock ih hw

/-- Single ownership survives every step that only drops joints. -/
theorem single_owner_shrink {w w' : World A R σ} (p : Nat) (h : single_owner w p)
    (hj : ∀ g, ((w'.signals g)._callbacks).Sublist (w.signals g)._callbacks) :
    single_owner w' p := by
  have hle : ∀ g, owner_count w' g p ≤ owner_count w g p :=
    fun g => List.Sublist.countP_le _ (hj g)
  refine ⟨fun g => le_trans (hle g) (h.1 g), fun g g' hne => ?_⟩
  have := h.2 g g' hne
  have := hle g
  have := hle g'
  omega

theorem connect_owner_count (w : World A R σ) (this : Nat) (fn : A → σ → R × σ)
    (owner : Option Nat) (g p : Nat) :
    owner_count (signal.connect w this fn owner).2 g p =
      owner_count w g p + (if g = this ∧ owner = some p then 1 else 0) := by
  unfold owner_count
  rw [connect_callbacks]
  by_cases hg : g = this
  · by_cases ho : owner = some p
    · simp [hg, ho, List.countP_append]
    · simp [hg, ho, List.countP_append]
  · simp [hg]

theorem single_owner_connect {w : World A R σ} (p : Nat) (h : single_owner w p) (this : Nat)
    (fn : A → σ → R × σ) (owner : Option Nat) (hg : owner_unnamed w owner) :
    single_owner (signal.connect w this fn owner).2 p := by
  by_cases ho : owner = some p
  · have hz := hg p ho
    refine ⟨fun g => ?_, fun g g' hne => ?_⟩
    · rw [connect_owner_count, hz g]
      split <;> omega
    · rw [connect_owner_count, connect_owner_count, hz g, hz g']
      by_cases h1 : g = this <;> by_cases h2 : g' = this
      · exact absurd (h1.trans h2.symm) hne
      · simp [h1, h2, ho]
      · simp [h1, h2, ho]
      · simp [h1, h2]
  · refine ⟨fun g => ?_, fun g g' hne => ?_⟩
    · rw [connect_owner_count]
      simpa [ho] using h.1 g
    · rw [connect_owner_count, connect_owner_count]
      simpa [ho] using h.2 g g' hne

/-- Under guarded `connect` every state has single ownership. -/
theorem ReachableGuarded.single {w : World A R σ} (hr : ReachableGuarded w) (p : Nat) :
    single_owner w p := by
  have hdisc : ∀ (u : World A R σ) (h : connection), single_owner u p →
      single_owner (connection.disconnect u h) p := by
    intro u h hu
    unfold connection.disconnect
    cases h._deleter with
    | none => exact hu
    | some g => exact single_owner_shrink p hu (destroy_connection_sublist u g _)
  induction hr with
  | init => exact ⟨fun g => by simp [owner_count, World.init, signal.signal],
      fun g g' _ => by simp [owner_count, World.init, signal.signal]⟩
  | connect this fn owner _ hg ih => exact single_owner_connect p ih this fn owner hg
  | disconnect this h _ ih =>
    exact single_owner_shrink p ih (destroy_connection_sublist _ this _)
  | disconnect_owner this owner _ ih =>
    cases owner with
    | none => exact ih
    | some q => exact single_owner_shrink p ih (destroy_connection_sublist _ this _)
  | disconnect_all this _ ih => exact single_owner_shrink p ih (fun g => List.Sublist.refl _)
  | set_lock this lock _ ih =>
    exact single_owner_shrink p ih (fun g => by rw [set_lock_callbacks])
  | handle_disconnect h _ ih => exact hdisc _ h ih
  | handle_set_lock h lock _ hw ih =>
    exact single_owner_shrink p ih (fun g => by rw [(handle_set_lock_eq hw).1])
  | slot_disconnect q _ ih => exact hdisc _ _ ih
  | slot_set_lock q lock _ hw ih =>
    exact single_owner_shrink p ih (fun g => by rw [(handle_set_lock_eq hw).1])

theorem owner_count_pos (w : World A R σ) (g p : Nat) (jnt : joint A R σ)
    (hj : jnt ∈ (w.signals g)._callbacks) (ho : jnt.owner = some p) : 0 < owner_count w g p := by
  unfold owner_count
  exact List.countP_pos_iff.mpr ⟨jnt, hj, by simp [ho]⟩

theorem owners_linked_destroy {w : World A R σ} (hI : Invariant w) (h : owners_linked w)
    (this : Nat) (conn : Option Nat) : owners_linked (signal.destroy_connection w this conn) := by
  intro g jnt hjnt p ho
  have hold := h g jnt ((destroy_connection_sublist w this conn g).subset hjnt) p ho
  rcases destroy_connection_slots w this conn with hs | ⟨j0, hj0, hc0, hs⟩
  · rw [hs]
    exact hold
  · rw [hs]
    by_cases hp0 : j0.owner = some p
    · exfalso
      have h0 := h this j0 hj0 p hp0
      have hgt : g = this := Option.some.inj (hold.2.symm.trans h0.2)
      have hcc : jnt.connection = conn := by rw [← hold.1, h0.1, hc0]
      subst hgt
      rw [destroy_connection_callbacks] at hjnt
      exact destroy_loop_absent conn _ w.slots (hI.distinct g) jnt hjnt hcc
    · have hsame : clear_owner w.slots j0.owner p = w.slots p := by
        cases hj0o : j0.owner with
        | none => rfl
        | some q =>
          have hne : p ≠ q := fun hpq => hp0 (by rw [hj0o, hpq])
          simp [clear_owner, Function.update_noteq hne]
      rw [hsame]
      exact hold

theorem owners_linked_connect {w : World A R σ} (h : owners_linked w) (this : Nat)
    (fn : A → σ → R × σ) (owner : Option Nat) (hg : owner_unnamed w owner) :
    owners_linked (signal.connect w this fn owner).2 := by
  intro g jnt hjnt p ho
  rw [connect_slots]
  rw [connect_callbacks] at hjnt
  have hold : jnt ∈ (w.signals g)._callbacks →
      (if owner = some p then
        ({ _data := some w.fresh, _deleter := some this } : connection) else w.slots p)._data =
          jnt.connection ∧
      (if owner = some p then
        ({ _data := some w.fresh, _deleter := some this } : connection) else w.slots p)._deleter =
          some g := by
    intro hmem
    have hne : owner ≠ some p := by
      intro hop
      have := owner_count_pos w g p jnt hmem ho
      have := hg p hop g
      omega
    simp only [hne, if_false]
    exact h g jnt hmem p ho
  by_cases hgt : g = this
  · simp only [hgt, if_true, List.mem_append, List.mem_singleton] at hjnt
    rcases hjnt with hmem | rfl
    · exact hold (hgt ▸ hmem)
    · simp only at ho
      simp [ho, hgt]
  · simp only [hgt, if_false] at hjnt
    exact hold hjnt

/-- Without `disconnect_all` and under guarded `connect`, a joint naming a slot
is the joint the slot points back to. -/
theorem ReachableAttached.linked {w : World A R σ} (hr : ReachableAttached w) :
    owners_linked w := by
  have hsame : ∀ (u u' : World A R σ), u'.signals = u.signals → u'.slots = u.slots →
      owners_linked u → owners_linked u' := by
    intro u u' h1 h2 hu g jnt hjnt p ho
    rw [h1] at hjnt
    rw [h2]
    exact hu g jnt hjnt p ho
  have hdisc : ∀ (u : World A R σ) (h : connection), Invariant u → owners_linked u →
      owners_linked (connection.disconnect u h) := by
    intro u h hI hu
    unfold connection.disconnect
    cases h._deleter with
    | none => exact hu
    | some g => exact owners_linked_destroy hI hu g _
  induction hr with
  | init =>
    intro g jnt hjnt
    simp [World.init, signal.signal] at hjnt
  | connect this fn owner _ hg ih => exact owners_linked_connect ih this fn owner hg
  | disconnect this h hr ih =>
    exact owners_linked_destroy hr.guarded.reachable.invariant ih this _
  | disconnect_owner this owner hr ih =>
    cases owner with
    | none => exact ih
    | some q => exact owners_linked_destroy hr.guarded.reachable.invariant ih this _
  | set_lock this lock _ ih =>
    intro g jnt hjnt p ho
    rw [set_lock_callbacks] at hjnt
    exact ih g jnt hjnt p ho
  | handle_disconnect h hr ih => exact hdisc _ h hr.guarded.reachable.invariant ih
  | handle_set_lock h lock _ hw ih =>
    exact hsame _ _ (handle_set_lock_eq hw).1 (handle_set_lock_eq hw).2.1 ih
  | slot_disconnect q hr ih => exact hdisc _ _ hr.guarded.reachable.invariant ih
  | slot_set_lock q lock _ hw ih =>
    exact hsame _ _ (handle_set_lock_eq hw).1 (handle_set_lock_eq hw).2.1 ih

theorem scenario_owned_attached : ReachableAttached scenario_owned := by
  refine ReachableAttached.connect 0 _ (some 8)
    (ReachableAttached.connect 0 _ none
      (ReachableAttached.connect 0 _ (some 7) ReachableAttached.init ?_) ?_) ?_
  · intro p _ g
    simp [owner_count, World.init, signal.signal]
  · intro p hp
    cases hp
  · intro p hp g
    cases hp
    by_cases hg : g = 0
    · subst hg
      decide
    · simp [owner_count, signal.connect, signal.create_connection, World.init, signal.signal,
        Function.update_noteq hg]

theorem scenario_twice_reachable : Reachable scenario_twice :=
  Reachable.connect 0 _ (some 7) (Reachable.connect 0 _ (some 7) Reachable.init)

theorem scenario_all_reachable : Reachable scenario_all :=
  Reachable.disconnect_all 0 (Reachable.connect 0 _ (some 7) Reachable.init)


/-- C13 as stated fails in two reachable states.  After `connect` with the slot
`7` as owner and `disconnect_all`, the joint still names the slot `7` while the
slot's back-reference is null; and after two `connect` calls with the slot `7`
as owner, a `disconnect` with the first handle clears the slot `7` while the
second joint still names it. -/
theorem slot_attachment_counterexample :
    (Reachable scenario_all ∧ (scenario_all.slots 7)._data = none ∧
        (scenario_all.slots 7)._deleter = none ∧ slot_named scenario_all 7) ∧
      (Reachable (signal.disconnect scenario_twice 0 (connection.mk (some 0) (some 0))) ∧
        ((signal.disconnect scenario_twice 0 (connection.mk (some 0) (some 0))).slots 7)._data =
          none ∧
        slot_named (signal.disconnect scenario_twice 0 (connection.mk (some 0) (some 0))) 7) :=
  ⟨⟨scenario_all_reachable, rfl, rfl, 0, _, List.mem_cons_self _ _, rfl⟩,
    ⟨Reachable.disconnect 0 _ scenario_twice_reachable, rfl, 0, _, List.mem_cons_self _ _, rfl⟩⟩

/-- C13, amended. Slot attachment invariant: in every state the public
operations produce, `disconnect_all` and repeated owners included, a slot whose
back-reference is non-null, its connection state or its removal operation, is
named as owner by a registered joint; and in every state reached without
`disconnect_all` and without passing to `connect` a slot that a registered joint
already names as owner, conversely a slot that a registered joint names as owner
has a non-null connection state and a non-null removal operation. -/
theorem slot_attachment_invariant (w : World A R σ) (p : Nat) :
    (Reachable w →
        ((w.slots p)._data ≠ none → slot_named w p) ∧
        ((w.slots p)._deleter ≠ none → slot_named w p)) ∧
      (ReachableAttached w →
        (slot_named w p → (w.slots p)._data ≠ none ∧ (w.slots p)._deleter ≠ none)) := by
  refine ⟨fun hR => ?_, fun hr => ?_⟩
  · have hfwd : (w.slots p)._data ≠ none → slot_named w p := by
      intro hd
      obtain ⟨c, hc⟩ := Option.ne_none_iff_exists'.mp hd
      obtain ⟨g, _, jnt, hjnt, hjc⟩ := hR.linkage.live p c hc
      exact ⟨g, jnt, hjnt, (hR.invariant.linked p c g jnt hjnt hc hjc).1⟩
    exact ⟨hfwd, fun hdel => hfwd (fun hd => hdel (hR.linkage.bound p hd))⟩
  · rintro ⟨g, jnt, hjnt, ho⟩
    obtain ⟨c, hc, _⟩ := hr.guarded.reachable.invariant.allocated g jnt hjnt
    have hl := hr.linked g jnt hjnt p ho
    refine ⟨?_, ?_⟩
    · rw [hl.1, hc]
      simp
    · rw [hl.2]
      simp

/-- The scenario with owners: the attached slot `7` is named by a joint and has
a removal operation, the slot `9`, never attached, is named by none. -/
theorem slot_attachment_invariant_witness :
    slot_named scenario_owned 7 ∧ ¬ slot_named scenario_owned 9 ∧
      (scenario_owned.slots 7)._deleter ≠ none :=
  ⟨((slot_attachment_invariant scenario_owned 7).1 scenario_owned_reachable).1 (by decide),
    fun hn => ((slot_attachment_invariant scenario_owned 9).2 scenario_owned_attached hn).1 rfl,
    ((slot_attachment_invariant scenario_owned 7).2 scenario_owned_attached
      (((slot_attachment_invariant scenario_owned 7).1 scenario_owned_reachable).1
        (by decide))).2⟩

/-- C14 as stated fails: after two `connect` calls that pass the slot `7` as
owner, a reachable state, two registered joints name the slot `7`. -/
theorem single_ownership_counterexample :
    Reachable scenario_twice ∧ owner_count scenario_twice 0 7 = 2 ∧
      ¬ single_owner scenario_twice 7 :=
  ⟨scenario_twice_reachable, by decide, fun h => absurd (h.1 0) (by decide)⟩

/-- C14, amended. Single ownership per slot: in every state reached from the
empty program by connect and disconnect operations in which no `connect` call
was passed a slot that a registered joint already named as owner, at most one
registered joint names a given slot as its owner. -/
theorem single_ownership_guarded (w : World A R σ) (hr : ReachableGuarded w) (p : Nat) :
    single_owner w p :=
  hr.single p

/-- The scenario with owners: exactly one joint names the slot `7`. -/
theorem single_ownership_guarded_witness :
    owner_count scenario_owned 0 7 = 1 ∧ single_owner scenario_owned 7 :=
  ⟨by decide, single_ownership_guarded scenario_owned scenario_owned_attached.guarded 7⟩

end lsignal
